import Mathlib

/- Verification development for the custom backtest engine of backtester.py:
   the transaction-cost model, the portfolio ledger (buy / sell / sell_all /
   equity / snapshot / get_cost_summary), the volatility-weighted
   trailing-stop strategy runner, and the drawdown/MDD block of the metrics
   calculator.

   Numeric model: Python floats are modelled as exact rationals (ℚ).
   Python round() (round half to even) is pyRound / pyRoundTo, Python int()
   (truncation toward zero) is pyInt.  Python dicts are association lists
   with first-match lookup, in-place replacement (insertion appends at the
   end, matching dict insertion order) and deletion of the stored key. -/

/-- Python round(q) on an exact rational: round half to even, to an integer. -/
def pyRound (q : ℚ) : ℤ :=
  if q - ⌊q⌋ < 1/2 then ⌊q⌋
  else if 1/2 < q - ⌊q⌋ then ⌊q⌋ + 1
  else if ⌊q⌋ % 2 = 0 then ⌊q⌋ else ⌊q⌋ + 1

/-- Python round(q, d) for d decimal digits, as a rational. -/
def pyRoundTo (d : ℕ) (q : ℚ) : ℚ := (pyRound (q * 10 ^ d) : ℚ) / 10 ^ d

/-- Python int(q): truncation toward zero. -/
def pyInt (q : ℚ) : ℤ := if 0 ≤ q then ⌊q⌋ else ⌈q⌉

/-- Dict lookup: first (unique) matching key. -/
def alookup {α : Type} : List (String × α) → String → Option α
  | [], _ => none
  | (k, v) :: rest, key => if k = key then some v else alookup rest key

/-- Dict write d[k] = v: replace in place, or append at the end (dict
insertion order) when the key is new. -/
def setAssoc {α : Type} : List (String × α) → String → α → List (String × α)
  | [], k, v => [(k, v)]
  | (k', v') :: rest, k, v =>
      if k' = k then (k, v) :: rest else (k', v') :: setAssoc rest k v

/-- Dict del d[k]: drop the stored entry for k. -/
def delAssoc {α : Type} : List (String × α) → String → List (String × α)
  | [], _ => []
  | (k', v') :: rest, k => if k' = k then rest else (k', v') :: delAssoc rest k

/-- The representation invariant of a Python dict: one entry per key. -/
def nodupKeys {α : Type} (m : List (String × α)) : Prop := (m.map Prod.fst).Nodup

/-- CostConfig: slippage / commission on both sides, tax on sell only. -/
structure CostConfig where
  slippage_pct : ℚ := 0
  commission_pct : ℚ := 0
  tax_pct : ℚ := 0
deriving DecidableEq

/-- TradeRecord: one per buy fill, completed in place on sell.
status is the literal Python string, "open" or "closed". -/
structure TradeRecord where
  ticker : String
  name : String
  entry_date : String
  entry_price : ℚ
  exec_price : ℚ
  shares : ℤ
  entry_cost : ℚ := 0
  exit_date : Option String := none
  exit_price : Option ℚ := none
  exec_exit_price : Option ℚ := none
  exit_cost : ℚ := 0
  pnl : ℚ := 0
  pnl_pct : ℚ := 0
  status : String := "open"
deriving DecidableEq, Inhabited

/-- One aggregated position per ticker: the dict
Portfolio.positions[ticker] = {'shares', 'avg_price', 'name'}. -/
structure Position where
  shares : ℤ
  avg_price : ℚ
  name : String
deriving DecidableEq

/-- One row of Portfolio.equity_history. -/
structure EquitySnapshot where
  date : String
  equity : ℚ
  cash : ℚ
  invested : ℚ
deriving DecidableEq

/-- The Portfolio ledger state. -/
structure Portfolio where
  initial_capital : ℚ
  cash : ℚ
  positions : List (String × Position) := []
  equity_history : List EquitySnapshot := []
  trades : List TradeRecord := []
  cost : CostConfig
  total_slippage_cost : ℚ := 0
  total_commission_cost : ℚ := 0
  total_tax_cost : ℚ := 0
deriving DecidableEq

/-- Portfolio.__init__. -/
def Portfolio.init (initial_capital : ℚ) (cost_config : CostConfig) : Portfolio :=
  { initial_capital := initial_capital, cash := initial_capital, cost := cost_config }

/-- The tail of Portfolio.buy after the size has been settled (Python lines
117-143): deduct costs, merge the position under the weighted-average rule,
append the open TradeRecord. -/
def Portfolio.fill (pf : Portfolio) (ticker : String) (price exec_price : ℚ)
    (shares : ℤ) (date name : String) : Portfolio :=
  let gross_cost := exec_price * (shares : ℚ)
  let commission := gross_cost * (pf.cost.commission_pct / 100)
  let total_cost := gross_cost + commission
  let slippage_cost := (exec_price - price) * (shares : ℚ)
  let positions :=
    match alookup pf.positions ticker with
    | some pos =>
        setAssoc pf.positions ticker
          { shares := pos.shares + shares,
            avg_price := (pos.avg_price * (pos.shares : ℚ) + exec_price * (shares : ℚ))
                          / ((pos.shares + shares : ℤ) : ℚ),
            name := pos.name }
    | none =>
        pf.positions ++ [(ticker,
          { shares := shares, avg_price := exec_price,
            name := if name = "" then ticker else name })]
  { pf with
      cash := pf.cash - total_cost,
      total_slippage_cost := pf.total_slippage_cost + slippage_cost,
      total_commission_cost := pf.total_commission_cost + commission,
      positions := positions,
      trades := pf.trades ++ [{ ticker := ticker,
                                name := if name = "" then ticker else name,
                                entry_date := date, entry_price := price,
                                exec_price := pyRoundTo 1 exec_price,
                                shares := shares,
                                entry_cost := pyRoundTo 0 (commission + slippage_cost) }] }

/-- Portfolio.buy: reject non-positive inputs, apply buy-side slippage,
shrink to the affordable maximum when commission-inclusive cost exceeds
cash, else fill the requested size. -/
def Portfolio.buy (pf : Portfolio) (ticker : String) (price : ℚ) (shares : ℤ)
    (date : String) (name : String) : ℤ × Portfolio :=
  if shares ≤ 0 ∨ price ≤ 0 then (0, pf)
  else
    let exec_price := price * (1 + pf.cost.slippage_pct / 100)
    let gross_cost := exec_price * (shares : ℚ)
    let commission := gross_cost * (pf.cost.commission_pct / 100)
    let total_cost := gross_cost + commission
    if pf.cash < total_cost then
      let max_shares := pyInt (pf.cash / (exec_price * (1 + pf.cost.commission_pct / 100)))
      if max_shares ≤ 0 then (0, pf)
      else (max_shares, pf.fill ticker price exec_price max_shares date name)
    else (shares, pf.fill ticker price exec_price shares date name)

/-- The reversed-order scan of Portfolio.sell lines 179-188: some l' when a
record with this ticker and status "open" exists, updating the LAST such
record (the first one the reversed scan meets); none when no record matches. -/
def closeLastOpenAux (ticker : String) (upd : TradeRecord → TradeRecord) :
    List TradeRecord → Option (List TradeRecord)
  | [] => none
  | t :: ts =>
    match closeLastOpenAux ticker upd ts with
    | some ts' => some (t :: ts')
    | none => if t.ticker = ticker ∧ t.status = "open" then some (upd t :: ts) else none

/-- The trade list after the reversed scan: unchanged when nothing matched. -/
def closeLastOpen (ticker : String) (upd : TradeRecord → TradeRecord)
    (l : List TradeRecord) : List TradeRecord :=
  (closeLastOpenAux ticker upd l).getD l

/-- The in-place completion a sell applies to the matched TradeRecord. -/
def sellCloseUpd (date : String) (price exec_price exit_cost pnl pnl_pct : ℚ)
    (t : TradeRecord) : TradeRecord :=
  { t with exit_date := some date, exit_price := some price,
           exec_exit_price := some (pyRoundTo 1 exec_price),
           exit_cost := exit_cost, pnl := pnl, pnl_pct := pnl_pct,
           status := "closed" }

/-- The completion a sell applies in place to the matched record (lines
181-187): exit marks, rounded exit cost, rounded pnl and pnl_pct computed on
the actually-sold share count. -/
def Portfolio.sellUpd (pf : Portfolio) (pos : Position) (price : ℚ) (actual : ℤ)
    (date : String) (t : TradeRecord) : TradeRecord :=
  let exec_price := price * (1 - pf.cost.slippage_pct / 100)
  let gross_proceeds := exec_price * (actual : ℚ)
  let commission := gross_proceeds * (pf.cost.commission_pct / 100)
  let tax := gross_proceeds * (pf.cost.tax_pct / 100)
  let net_proceeds := gross_proceeds - commission - tax
  let slippage_cost := (price - exec_price) * (actual : ℚ)
  let pnl := net_proceeds - pos.avg_price * (actual : ℚ)
  let pnl_pct := if 0 < pos.avg_price
                 then (net_proceeds / (pos.avg_price * (actual : ℚ)) - 1) * 100 else 0
  sellCloseUpd date price exec_price (pyRoundTo 0 (commission + tax + slippage_cost))
    (pyRoundTo 0 pnl) (pyRoundTo 2 pnl_pct) t

/-- Portfolio.sell.  Divergence note: when the position exists,
avg_price > 0 and actual = 0 (a zero-share request), the Python source
raises ZeroDivisionError at the pnl_pct line after having already updated
the cost counters and cash; ℚ division by zero makes the embedding total
there (pnl_pct then gets the junk value -100).  No theorem below reads
pnl_pct on that path. -/
def Portfolio.sell (pf : Portfolio) (ticker : String) (price : ℚ) (shares : ℤ)
    (date : String) : ℤ × Portfolio :=
  match alookup pf.positions ticker with
  | none => (0, pf)
  | some pos =>
    let actual := min shares pos.shares
    let exec_price := price * (1 - pf.cost.slippage_pct / 100)
    let gross_proceeds := exec_price * (actual : ℚ)
    let commission := gross_proceeds * (pf.cost.commission_pct / 100)
    let tax := gross_proceeds * (pf.cost.tax_pct / 100)
    let net_proceeds := gross_proceeds - commission - tax
    let slippage_cost := (price - exec_price) * (actual : ℚ)
    let trades := closeLastOpen ticker (pf.sellUpd pos price actual date) pf.trades
    let positions :=
      if pos.shares - actual ≤ 0 then delAssoc pf.positions ticker
      else setAssoc pf.positions ticker { pos with shares := pos.shares - actual }
    (actual, { pf with cash := pf.cash + net_proceeds,
                       total_slippage_cost := pf.total_slippage_cost + slippage_cost,
                       total_commission_cost := pf.total_commission_cost + commission,
                       total_tax_cost := pf.total_tax_cost + tax,
                       trades := trades, positions := positions })

/-- One iteration of the sell_all loop: skip tickers without a mark. -/
def sellAllStep (prices : List (String × ℚ)) (date : String)
    (pf : Portfolio) (ticker : String) : Portfolio :=
  match alookup prices ticker with
  | some p =>
      match alookup pf.positions ticker with
      | some pos => (pf.sell ticker p pos.shares date).2
      | none => pf
  | none => pf

/-- Portfolio.sell_all: iterate over a snapshot of the position keys. -/
def Portfolio.sell_all (pf : Portfolio) (prices : List (String × ℚ))
    (date : String) : Portfolio :=
  (pf.positions.map Prod.fst).foldl (sellAllStep prices date) pf

/-- Portfolio.equity: cash plus each position marked at the supplied price,
falling back to its avg_price when the ticker has no mark. -/
def Portfolio.equity (pf : Portfolio) (prices : List (String × ℚ)) : ℚ :=
  pf.positions.foldl
    (fun total tp => total + ((alookup prices tp.1).getD tp.2.avg_price) * (tp.2.shares : ℚ))
    pf.cash

/-- Portfolio.snapshot: append one daily EquitySnapshot. -/
def Portfolio.snapshot (pf : Portfolio) (date : String)
    (prices : List (String × ℚ)) : Portfolio :=
  let eq := pf.equity prices
  { pf with equity_history := pf.equity_history ++
      [{ date := date, equity := eq, cash := pf.cash, invested := eq - pf.cash }] }

/-- The dict Portfolio.get_cost_summary returns. -/
structure CostSummary where
  slippage : ℤ
  commission : ℤ
  tax : ℤ
  total : ℤ
deriving DecidableEq

/-- Portfolio.get_cost_summary: each cumulative counter rounded, and the
rounding of their raw (unrounded) sum. -/
def Portfolio.get_cost_summary (pf : Portfolio) : CostSummary :=
  { slippage := pyRound pf.total_slippage_cost,
    commission := pyRound pf.total_commission_cost,
    tax := pyRound pf.total_tax_cost,
    total := pyRound (pf.total_slippage_cost + pf.total_commission_cost
                       + pf.total_tax_cost) }

/-- An order sent to the ledger: the operations strategies perform on it. -/
inductive Op
  | buyOp (ticker : String) (price : ℚ) (shares : ℤ) (date name : String)
  | sellOp (ticker : String) (price : ℚ) (shares : ℤ) (date : String)
deriving DecidableEq

/-- Run one order against the ledger, keeping the resulting state. -/
def applyOp (pf : Portfolio) : Op → Portfolio
  | .buyOp t p s d n => (pf.buy t p s d n).2
  | .sellOp t p s d => (pf.sell t p s d).2

/-- Run a sequence of orders left to right. -/
def applyOps (pf : Portfolio) (ops : List Op) : Portfolio := ops.foldl applyOp pf

/-- An order with positive quoted price and positive requested shares. -/
def opValid : Op → Prop
  | .buyOp _ p s _ _ => 0 < p ∧ 0 < s
  | .sellOp _ p s _ => 0 < p ∧ 0 < s

/-- One daily price bar, the row dict of add_price_data. -/
structure PriceBar where
  date : String
  openPx : ℚ
  highPx : ℚ
  lowPx : ℚ
  close : ℚ
  volume : ℤ
deriving DecidableEq

/-- Stable insertion into a by-date sorted bar list. -/
def insertBarByDate (a : PriceBar) : List PriceBar → List PriceBar
  | [] => [a]
  | x :: xs => if x.date < a.date then x :: insertBarByDate a xs else a :: x :: xs

/-- sorted(data, key=date): stable insertion sort. -/
def sortBars : List PriceBar → List PriceBar
  | [] => []
  | x :: xs => insertBarByDate x (sortBars xs)

/-- Insertion into a sorted list of distinct date strings. -/
def insertDate (a : String) : List String → List String
  | [] => [a]
  | x :: xs => if x < a then x :: insertDate a xs else a :: x :: xs

/-- sorted(...) over distinct date strings. -/
def sortDates : List String → List String
  | [] => []
  | x :: xs => insertDate x (sortDates xs)

/-- BacktestEngine state (the parts the strategies under proof use). -/
structure BacktestEngine where
  initial_capital : ℚ
  cost_config : CostConfig
  portfolio : Portfolio
  price_data : List (String × List PriceBar) := []
  ticker_names : List (String × String) := []
  all_dates : List String := []

/-- BacktestEngine.__init__. -/
def BacktestEngine.mk0 (initial_capital slippage_pct commission_pct tax_pct : ℚ) :
    BacktestEngine :=
  let cfg : CostConfig := { slippage_pct := slippage_pct,
                            commission_pct := commission_pct, tax_pct := tax_pct }
  { initial_capital := initial_capital, cost_config := cfg,
    portfolio := Portfolio.init initial_capital cfg }

/-- BacktestEngine.add_price_data: sort the bars, overwrite on re-supply. -/
def BacktestEngine.add_price_data (eng : BacktestEngine) (ticker : String)
    (data : List PriceBar) (name : String) : BacktestEngine :=
  { eng with price_data := setAssoc eng.price_data ticker (sortBars data),
             ticker_names := if name = "" then eng.ticker_names
                             else setAssoc eng.ticker_names ticker name }

/-- BacktestEngine._build_dates: the sorted union of all per-ticker dates. -/
def buildDates (price_data : List (String × List PriceBar)) : List String :=
  sortDates ((price_data.foldl (fun acc td => acc ++ td.2.map (·.date)) []).dedup)

/-- The scan inside _last_known_prices: remember the close of every bar with
date ≤ the target, stop at the first later bar (the list is date-sorted). -/
def lastKnownClose (date : String) : List PriceBar → Option ℚ → Option ℚ
  | [], acc => acc
  | row :: rest, acc =>
      if date < row.date then acc else lastKnownClose date rest (some row.close)

/-- BacktestEngine._last_known_prices. -/
def BacktestEngine.last_known_prices (eng : BacktestEngine) (date : String) :
    List (String × ℚ) :=
  eng.price_data.filterMap fun td =>
    match lastKnownClose date td.2 none with
    | some p => some (td.1, p)
    | none => none

/-- Per-run mutable state of run_volatility_trailing_stop. -/
structure VolStopState where
  portfolio : Portfolio
  peaks : List (String × ℚ)
  sold_day : List (String × ℤ)
  holding : List (String × Bool)
  initial_buy_done : Bool
deriving DecidableEq

/-- The trailing-stop check of one held ticker on one day (lines 504-521):
refresh the peak with today's price, then force-sell the whole position and
start the cooldown when the drawdown from the peak reaches stop_pct. -/
def stopCheckOne (stop_pct : ℚ) (prices : List (String × ℚ)) (i : ℤ)
    (date : String) (st : VolStopState) (t : String) : VolStopState :=
  if (alookup st.holding t).getD false = false then st
  else
    match alookup prices t with
    | none => st
    | some p =>
      let peaks := if (alookup st.peaks t).getD 0 < p then setAssoc st.peaks t p
                   else st.peaks
      let pk := (alookup peaks t).getD p
      if 0 < pk ∧ (p / pk - 1) * 100 ≤ stop_pct then
        let portfolio :=
          match alookup st.portfolio.positions t with
          | some pos => (st.portfolio.sell t p pos.shares date).2
          | none => st.portfolio
        { st with portfolio := portfolio, peaks := peaks,
                  holding := setAssoc st.holding t false,
                  sold_day := setAssoc st.sold_day t i }
      else { st with peaks := peaks }

/-- The sell phase of one day: the stop check over every valid ticker. -/
def volStopSellPhase (stop_pct : ℚ) (prices : List (String × ℚ)) (i : ℤ)
    (date : String) (valid : List String) (st : VolStopState) : VolStopState :=
  valid.foldl (fun s t => stopCheckOne stop_pct prices i date s t) st

/-- The buyable filter (lines 525-534): not held, re-entry allowed, cooldown
elapsed, and a positive price available today. -/
def volStopBuyable (valid : List String) (prices : List (String × ℚ))
    (holding : List (String × Bool)) (sold_day : List (String × ℤ))
    (initial_buy_done : Bool) (i cooldown : ℤ) (reentry : Bool) : List String :=
  valid.filter fun t =>
    !((alookup holding t).getD false) &&
    !(!reentry && decide (0 ≤ (alookup sold_day t).getD 0) && initial_buy_done) &&
    decide (cooldown < i - (alookup sold_day t).getD 0) &&
    (match alookup prices t with
     | some p => decide (0 < p)
     | none => false)

/-- Inverse-volatility weight input of one ticker (lines 539-550).
statistics.stdev returns the square root of the sample variance, which is
irrational in general; the runner is therefore parameterized by the stdev
implementation stdevFn, and every theorem below holds for every stdevFn. -/
def volInv (stdevFn : List ℚ → ℚ) (lookback : ℕ) (bars : List PriceBar)
    (date : String) : ℚ :=
  let closes0 := (bars.filter fun row => !(decide (date < row.date))).map (·.close)
  let closes := closes0.drop (closes0.length - (lookback + 1))
  if 2 ≤ closes.length then
    let rets := ((closes.drop 1).zip closes).map fun c => c.1 / c.2 - 1
    let vol := if 1 < rets.length then stdevFn rets else 1
    1 / max vol (1 / 100000000)
  else 1

/-- One buy of the volatility-weighted loop (lines 558-572).  alloc is a
share of the cash captured before the loop, so sequential buys compete for
the same pool. -/
def volStopBuyOne (cfg : CostConfig) (ticker_names : List (String × String))
    (prices : List (String × ℚ)) (invVols : List (String × ℚ)) (total_inv : ℚ)
    (available : ℚ) (nbuy : ℕ) (date : String) (st : VolStopState) (t : String) :
    VolStopState :=
  let weight := if 0 < total_inv then (alookup invVols t).getD 0 / total_inv
                else 1 / (nbuy : ℚ)
  let alloc := available * weight
  if alloc ≤ 0 then st
  else
    match alookup prices t with
    | none => st
    | some p =>
      let exec_p := p * (1 + cfg.slippage_pct / 100)
      let shares := pyInt (alloc / (exec_p * (1 + cfg.commission_pct / 100)))
      if 0 < shares then
        let name := (alookup ticker_names t).getD t
        let res := st.portfolio.buy t p shares date name
        if 0 < res.1 then
          { st with portfolio := res.2,
                    holding := setAssoc st.holding t true,
                    peaks := setAssoc st.peaks t p,
                    initial_buy_done := true }
        else { st with portfolio := res.2 }
      else st

/-- The buy phase of one day (lines 525-572). -/
def volStopBuyPhase (cfg : CostConfig) (ticker_names : List (String × String))
    (price_data : List (String × List PriceBar)) (stdevFn : List ℚ → ℚ)
    (lookback : ℕ) (cooldown : ℤ) (reentry : Bool) (prices : List (String × ℚ))
    (i : ℤ) (date : String) (valid : List String) (st : VolStopState) :
    VolStopState :=
  let buyable := volStopBuyable valid prices st.holding st.sold_day
                   st.initial_buy_done i cooldown reentry
  if buyable.isEmpty then st
  else
    let invVols := buyable.map fun t =>
      (t, volInv stdevFn lookback ((alookup price_data t).getD []) date)
    let total_inv := (invVols.map (·.2)).sum
    let available := st.portfolio.cash
    buyable.foldl
      (volStopBuyOne cfg ticker_names prices invVols total_inv available
        buyable.length date) st

/-- One simulated day of run_volatility_trailing_stop: stop checks, then
volatility-weighted buys, then the daily snapshot. -/
def volStopDay (eng : BacktestEngine) (stdevFn : List ℚ → ℚ) (lookback : ℕ)
    (stop_pct : ℚ) (cooldown : ℤ) (reentry : Bool) (valid : List String)
    (st : VolStopState) (idx : ℤ × String) : VolStopState :=
  let prices := eng.last_known_prices idx.2
  let st1 := volStopSellPhase stop_pct prices idx.1 idx.2 valid st
  let st2 := volStopBuyPhase eng.cost_config eng.ticker_names eng.price_data
               stdevFn lookback cooldown reentry prices idx.1 idx.2 valid st1
  { st2 with portfolio := st2.portfolio.snapshot idx.2 prices }

/-- BacktestEngine.run_volatility_trailing_stop. -/
def BacktestEngine.run_volatility_trailing_stop (eng0 : BacktestEngine)
    (stdevFn : List ℚ → ℚ) (tickers : List String)
    (start_date end_date : Option String) (lookback : ℕ) (stop_pct : ℚ)
    (cooldown : ℤ) (reentry : Bool) : BacktestEngine :=
  let eng := { eng0 with all_dates := buildDates eng0.price_data }
  if eng.all_dates.isEmpty then eng
  else
    let start := start_date.getD eng.all_dates.headI
    let stop := end_date.getD (eng.all_dates.getLast?.getD "")
    let dates := eng.all_dates.filter fun d => !decide (d < start) && !decide (stop < d)
    let valid := tickers.filter fun t =>
      match alookup eng.price_data t with
      | some l => !l.isEmpty
      | none => false
    if valid.isEmpty || dates.isEmpty then eng
    else
      let st0 : VolStopState :=
        { portfolio := eng.portfolio, peaks := [],
          sold_day := valid.map fun t => (t, -cooldown - 1),
          holding := valid.map fun t => (t, false),
          initial_buy_done := false }
      let stF := (dates.enum.map fun p => ((p.1 : ℤ), p.2)).foldl
                   (volStopDay eng stdevFn lookback stop_pct cooldown reentry valid) st0
      { eng with portfolio := stF.portfolio }

/-- The running state of the MDD loop in _calc_metrics (lines 948-963). -/
structure MddState where
  peak : ℚ
  mdd : ℚ
  dd_curve : List ℚ
  mdd_peak_d : String
  mdd_trough_d : String
  tmp_peak_d : String

/-- One iteration of the MDD loop: refresh the running peak, append the
rounded drawdown, keep the deepest drawdown and its peak/trough dates. -/
def mddStep (s : MddState) (x : ℚ × String) : MddState :=
  let peak := if s.peak < x.1 then x.1 else s.peak
  let tmp_peak_d := if s.peak < x.1 then x.2 else s.tmp_peak_d
  let dd := if 0 < peak then (x.1 / peak - 1) * 100 else 0
  let dd_curve := s.dd_curve ++ [pyRoundTo 2 dd]
  if dd < s.mdd then
    { peak := peak, mdd := dd, dd_curve := dd_curve,
      mdd_peak_d := tmp_peak_d, mdd_trough_d := x.2, tmp_peak_d := tmp_peak_d }
  else
    { s with peak := peak, tmp_peak_d := tmp_peak_d, dd_curve := dd_curve }

/-- The MDD block of BacktestEngine._calc_metrics: none on the guarded
degenerate inputs (no equities, or first equity zero) and on an empty date
list (where Python would raise IndexError at dates[0]); otherwise the
rounded drawdown curve, the reported mdd (the rounded deepest raw drawdown)
and the mdd period dates.  The zip pairs each equity with its date; the
theorem below assumes the two lists have equal length, the only case the
source can run to completion. -/
def calcMetricsMdd (equities : List ℚ) (dates : List String) :
    Option (List ℚ × ℚ × String × String) :=
  match equities, dates with
  | [], _ => none
  | _ :: _, [] => none
  | e0 :: _, d0 :: _ =>
    if e0 = 0 then none
    else
      let fin := (equities.zip dates).foldl mddStep
        { peak := e0, mdd := 0, dd_curve := [],
          mdd_peak_d := d0, mdd_trough_d := d0, tmp_peak_d := d0 }
      some (fin.dd_curve, pyRoundTo 2 fin.mdd, fin.mdd_peak_d, fin.mdd_trough_d)

theorem pyRound_eq_floor_or_succ (q : ℚ) : pyRound q = ⌊q⌋ ∨ pyRound q = ⌊q⌋ + 1 := by
  unfold pyRound
  split_ifs <;> simp

theorem pyRound_mono {q r : ℚ} (h : q ≤ r) : pyRound q ≤ pyRound r := by
  have hf : ⌊q⌋ ≤ ⌊r⌋ := Int.floor_le_floor h
  rcases eq_or_lt_of_le hf with heq | hlt
  · have hc : ((⌊q⌋ : ℚ)) = ((⌊r⌋ : ℚ)) := by rw [heq]
    unfold pyRound
    split_ifs <;> first | omega | (exfalso; linarith)
  · rcases pyRound_eq_floor_or_succ q with hq | hq <;>
      rcases pyRound_eq_floor_or_succ r with hr | hr <;> omega

theorem pyRound_zero : pyRound 0 = 0 := by
  norm_num [pyRound]

theorem pyRound_nonneg {q : ℚ} (h : 0 ≤ q) : 0 ≤ pyRound q := by
  have := pyRound_mono h
  rwa [pyRound_zero] at this

theorem pyRound_nonpos {q : ℚ} (h : q ≤ 0) : pyRound q ≤ 0 := by
  have := pyRound_mono h
  rwa [pyRound_zero] at this

theorem pyRoundTo_mono (d : ℕ) {q r : ℚ} (h : q ≤ r) : pyRoundTo d q ≤ pyRoundTo d r := by
  unfold pyRoundTo
  have hp : (0 : ℚ) < 10 ^ d := by positivity
  have hm : q * 10 ^ d ≤ r * 10 ^ d := by nlinarith
  have hc : ((pyRound (q * 10 ^ d) : ℤ) : ℚ) ≤ ((pyRound (r * 10 ^ d) : ℤ) : ℚ) := by
    exact_mod_cast pyRound_mono hm
  exact div_le_div_of_nonneg_right hc hp.le

theorem pyRoundTo_zero (d : ℕ) : pyRoundTo d 0 = 0 := by
  unfold pyRoundTo
  rw [zero_mul, pyRound_zero]
  norm_num

theorem pyRoundTo_nonpos (d : ℕ) {q : ℚ} (h : q ≤ 0) : pyRoundTo d q ≤ 0 := by
  have := pyRoundTo_mono d h
  rwa [pyRoundTo_zero] at this

theorem alookup_setAssoc_self {α : Type} (m : List (String × α)) (k : String) (v : α) :
    alookup (setAssoc m k v) k = some v := by
  induction m with
  | nil => simp [setAssoc, alookup]
  | cons p rest ih =>
    obtain ⟨a, b⟩ := p
    by_cases h : a = k
    · simp [setAssoc, h, alookup]
    · simp only [setAssoc, if_neg h, alookup]
      exact ih

theorem alookup_setAssoc_ne {α : Type} (m : List (String × α)) (k k' : String) (v : α)
    (h : k' ≠ k) : alookup (setAssoc m k v) k' = alookup m k' := by
  have h' : ¬ k = k' := fun he => h he.symm
  induction m with
  | nil => simp [setAssoc, alookup, h']
  | cons p rest ih =>
    obtain ⟨a, b⟩ := p
    by_cases hp : a = k
    · subst hp
      simp [setAssoc, alookup, h']
    · simp only [setAssoc, if_neg hp, alookup]
      by_cases hk : a = k' <;> simp [hk, ih]

theorem alookup_delAssoc_ne {α : Type} (m : List (String × α)) (k k' : String)
    (h : k' ≠ k) : alookup (delAssoc m k) k' = alookup m k' := by
  have h' : ¬ k = k' := fun he => h he.symm
  induction m with
  | nil => simp [delAssoc]
  | cons p rest ih =>
    obtain ⟨a, b⟩ := p
    by_cases hp : a = k
    · subst hp
      simp [delAssoc, alookup, h']
    · simp only [delAssoc, if_neg hp, alookup]
      by_cases hk : a = k' <;> simp [hk, ih]

theorem alookup_none_iff_not_mem_keys {α : Type} (m : List (String × α)) (k : String) :
    alookup m k = none ↔ k ∉ m.map Prod.fst := by
  induction m with
  | nil => simp [alookup]
  | cons p rest ih =>
    obtain ⟨a, b⟩ := p
    by_cases hp : a = k
    · simp [alookup, hp]
    · have hk : ¬ k = a := fun he => hp he.symm
      simp only [alookup, if_neg hp, List.map_cons, List.mem_cons, not_or]
      rw [ih]
      tauto

theorem alookup_delAssoc_self {α : Type} (m : List (String × α)) (k : String)
    (h : nodupKeys m) : alookup (delAssoc m k) k = none := by
  induction m with
  | nil => simp [delAssoc, alookup]
  | cons p rest ih =>
    obtain ⟨a, b⟩ := p
    have h1 : a ∉ rest.map Prod.fst := (List.nodup_cons.mp h).1
    have h2 : nodupKeys rest := (List.nodup_cons.mp h).2
    by_cases hp : a = k
    · simp only [delAssoc, if_pos hp]
      rw [alookup_none_iff_not_mem_keys]
      rwa [hp] at h1
    · simp only [delAssoc, if_neg hp, alookup]
      exact ih h2

theorem alookup_some_mem {α : Type} {m : List (String × α)} {k : String} {v : α}
    (h : alookup m k = some v) : (k, v) ∈ m := by
  induction m with
  | nil => simp [alookup] at h
  | cons p rest ih =>
    obtain ⟨a, b⟩ := p
    by_cases hp : a = k
    · simp only [alookup, if_pos hp, Option.some.injEq] at h
      subst hp
      subst h
      exact List.mem_cons_self _ _
    · simp only [alookup, if_neg hp] at h
      exact List.mem_cons_of_mem _ (ih h)

theorem alookup_some_mem_keys {α : Type} {m : List (String × α)} {k : String} {v : α}
    (h : alookup m k = some v) : k ∈ m.map Prod.fst :=
  List.mem_map.mpr ⟨(k, v), alookup_some_mem h, rfl⟩

theorem mem_setAssoc {α : Type} {m : List (String × α)} {k : String} {v : α}
    {p : String × α} (h : p ∈ setAssoc m k v) : p = (k, v) ∨ p ∈ m := by
  induction m with
  | nil =>
    simp only [setAssoc, List.mem_singleton] at h
    exact Or.inl h
  | cons q rest ih =>
    obtain ⟨a, b⟩ := q
    by_cases hq : a = k
    · simp only [setAssoc, if_pos hq, List.mem_cons] at h
      rcases h with h | h
      · exact Or.inl h
      · exact Or.inr (List.mem_cons_of_mem _ h)
    · simp only [setAssoc, if_neg hq, List.mem_cons] at h
      rcases h with h | h
      · exact Or.inr (List.mem_cons.mpr (Or.inl h))
      · rcases ih h with h' | h'
        · exact Or.inl h'
        · exact Or.inr (List.mem_cons_of_mem _ h')

theorem mem_delAssoc {α : Type} {m : List (String × α)} {k : String}
    {p : String × α} (h : p ∈ delAssoc m k) : p ∈ m := by
  induction m with
  | nil =>
    simp only [delAssoc, List.not_mem_nil] at h
  | cons q rest ih =>
    obtain ⟨a, b⟩ := q
    by_cases hq : a = k
    · simp only [delAssoc, if_pos hq] at h
      exact List.mem_cons_of_mem _ h
    · simp only [delAssoc, if_neg hq, List.mem_cons] at h
      rcases h with h | h
      · exact List.mem_cons.mpr (Or.inl h)
      · exact List.mem_cons_of_mem _ (ih h)

theorem keys_setAssoc_subset {α : Type} (m : List (String × α)) (k : String) (v : α) :
    ∀ x ∈ (setAssoc m k v).map Prod.fst, x = k ∨ x ∈ m.map Prod.fst := by
  intro x hx
  rcases List.mem_map.mp hx with ⟨p, hp, hpx⟩
  rcases mem_setAssoc hp with h | h
  · left
    rw [← hpx, h]
  · right
    exact List.mem_map.mpr ⟨p, h, hpx⟩

theorem nodupKeys_setAssoc {α : Type} (m : List (String × α)) (k : String) (v : α)
    (h : nodupKeys m) : nodupKeys (setAssoc m k v) := by
  induction m with
  | nil => simp [setAssoc, nodupKeys]
  | cons p rest ih =>
    obtain ⟨a, b⟩ := p
    have h1 : a ∉ rest.map Prod.fst := (List.nodup_cons.mp h).1
    have h2 : nodupKeys rest := (List.nodup_cons.mp h).2
    by_cases hp : a = k
    · unfold nodupKeys
      simp only [setAssoc, if_pos hp, List.map_cons]
      exact List.nodup_cons.mpr ⟨by rwa [hp] at h1, h2⟩
    · unfold nodupKeys
      simp only [setAssoc, if_neg hp, List.map_cons]
      refine List.nodup_cons.mpr ⟨?_, ih h2⟩
      intro hmem
      rcases keys_setAssoc_subset rest k v _ hmem with h' | h'
      · exact hp h'
      · exact h1 h'

theorem nodupKeys_delAssoc {α : Type} (m : List (String × α)) (k : String)
    (h : nodupKeys m) : nodupKeys (delAssoc m k) := by
  induction m with
  | nil => simp [delAssoc, nodupKeys]
  | cons p rest ih =>
    obtain ⟨a, b⟩ := p
    have h1 : a ∉ rest.map Prod.fst := (List.nodup_cons.mp h).1
    have h2 : nodupKeys rest := (List.nodup_cons.mp h).2
    by_cases hp : a = k
    · simpa only [delAssoc, if_pos hp] using h2
    · unfold nodupKeys
      simp only [delAssoc, if_neg hp, List.map_cons]
      refine List.nodup_cons.mpr ⟨?_, ih h2⟩
      intro hmem
      rcases List.mem_map.mp hmem with ⟨q, hq, hqx⟩
      exact h1 (List.mem_map.mpr ⟨q, mem_delAssoc hq, hqx⟩)

theorem alookup_append_some {α : Type} {m : List (String × α)} (m' : List (String × α))
    {k : String} {v : α} (h : alookup m k = some v) : alookup (m ++ m') k = some v := by
  induction m with
  | nil => simp [alookup] at h
  | cons p rest ih =>
    obtain ⟨a, b⟩ := p
    by_cases hp : a = k
    · simp only [alookup, if_pos hp] at h
      simp only [List.cons_append, alookup, if_pos hp]
      exact h
    · simp only [alookup, if_neg hp] at h
      simp only [List.cons_append, alookup, if_neg hp]
      exact ih h

theorem alookup_append_none {α : Type} {m : List (String × α)} (m' : List (String × α))
    {k : String} (h : alookup m k = none) : alookup (m ++ m') k = alookup m' k := by
  induction m with
  | nil => simp
  | cons p rest ih =>
    obtain ⟨a, b⟩ := p
    by_cases hp : a = k
    · simp [alookup, hp] at h
    · simp only [alookup, if_neg hp] at h
      simp only [List.cons_append, alookup, if_neg hp]
      exact ih h

theorem foldl_add_map_sum {α : Type} (f : α → ℚ) (l : List α) (c : ℚ) :
    l.foldl (fun acc x => acc + f x) c = c + (l.map f).sum := by
  induction l generalizing c with
  | nil => simp
  | cons x xs ih =>
    simp only [List.foldl_cons, List.map_cons, List.sum_cons]
    rw [ih]
    ring

/-- The mark-to-market value of the open positions as the claim states it:
shares times the supplied mark, a ticker absent from the price map being
valued at its position's avg_price. -/
def markedPositionsValue (positions : List (String × Position))
    (prices : List (String × ℚ)) : ℚ :=
  (positions.map fun tp =>
    ((alookup prices tp.1).getD tp.2.avg_price) * (tp.2.shares : ℚ)).sum

/-- C1: on every simulated day, snapshot appends one row whose equity is
cash plus the sum over open positions of shares times the supplied mark,
tickers absent from the price map being valued at the position's
avgExecPrice instead of being dropped. -/
theorem C1_snapshot_equity_cash_plus_marked_positions
    (pf : Portfolio) (date : String) (prices : List (String × ℚ)) :
    (pf.snapshot date prices).equity_history =
      pf.equity_history ++
        [{ date := date,
           equity := pf.cash + markedPositionsValue pf.positions prices,
           cash := pf.cash,
           invested := markedPositionsValue pf.positions prices }] := by
  have he : pf.equity prices = pf.cash + markedPositionsValue pf.positions prices := by
    unfold Portfolio.equity markedPositionsValue
    exact foldl_add_map_sum _ _ _
  unfold Portfolio.snapshot
  rw [he]
  simp

/-- A zero-cost configuration for concrete runs. -/
def cfg0 : CostConfig := {}

/-- A ledger holding one share of A bought at 10 with capital 100. -/
def pfOneShare : Portfolio := ((Portfolio.init 100 cfg0).buy "A" 10 1 "d1" "").2

/-- C3 counterexample: with one share of A held, sell("A", 10, -1) is not
rejected: it returns -1 filled (not 0) and debits cash. -/
theorem C3_counterexample_sell_accepts_negative_shares :
    (pfOneShare.sell "A" 10 (-1) "d2").1 ≠ 0 ∧
    (pfOneShare.sell "A" 10 (-1) "d2").2.cash ≠ pfOneShare.cash := by
  norm_num [pfOneShare, Portfolio.sell, Portfolio.buy, Portfolio.fill, Portfolio.init,
    cfg0, alookup, min_def]

/-- C3 amended: buy silently rejects non-positive price or share count,
returning 0 with the ledger untouched; sell rejects only orders for a
ticker with no open position (returning 0 and an untouched ledger), and
performs no price or share-count validation of its own. -/
theorem C3_amended_buy_validates_sell_only_checks_position :
    (∀ (pf : Portfolio) (t : String) (p : ℚ) (s : ℤ) (d n : String),
        s ≤ 0 ∨ p ≤ 0 → pf.buy t p s d n = (0, pf)) ∧
    (∀ (pf : Portfolio) (t : String) (p : ℚ) (s : ℤ) (d : String),
        alookup pf.positions t = none → pf.sell t p s d = (0, pf)) := by
  constructor
  · intro pf t p s d n h
    unfold Portfolio.buy
    rw [if_pos h]
  · intro pf t p s d h
    unfold Portfolio.sell
    rw [h]

/-- C4: a sell against an existing position fills min(requested, held), the
share count never goes negative, and the position entry is removed exactly
when the count reaches zero (otherwise it survives with the difference). -/
theorem C4_sell_caps_at_held_and_deletes_at_zero
    (pf : Portfolio) (t : String) (price : ℚ) (req : ℤ) (date : String)
    (pos : Position)
    (hpos : alookup pf.positions t = some pos)
    (hnd : nodupKeys pf.positions)
    (hsh : 0 < pos.shares) :
    (pf.sell t price req date).1 = min req pos.shares ∧
    0 ≤ pos.shares - min req pos.shares ∧
    (alookup (pf.sell t price req date).2.positions t = none ↔
      pos.shares - min req pos.shares = 0) ∧
    (0 < pos.shares - min req pos.shares →
      alookup (pf.sell t price req date).2.positions t =
        some { pos with shares := pos.shares - min req pos.shares }) := by
  have hmin : min req pos.shares ≤ pos.shares := min_le_right _ _
  have h1 : (pf.sell t price req date).1 = min req pos.shares := by
    simp only [Portfolio.sell, hpos]
  refine ⟨h1, by omega, ?_, ?_⟩
  · simp only [Portfolio.sell, hpos]
    by_cases hd : pos.shares - min req pos.shares ≤ 0
    · rw [if_pos hd, alookup_delAssoc_self pf.positions t hnd]
      constructor
      · intro _
        omega
      · intro _
        rfl
    · rw [if_neg hd, alookup_setAssoc_self]
      constructor
      · intro hcontra
        exact absurd hcontra (Option.some_ne_none _)
      · intro h0
        exact absurd h0 (by omega)
  · intro hgt
    simp only [Portfolio.sell, hpos]
    rw [if_neg (by omega), alookup_setAssoc_self]

/-- A ledger holding two shares of A bought at 10 with capital 100. -/
def pfTwoShares : Portfolio := ((Portfolio.init 100 cfg0).buy "A" 10 2 "d1" "").2

/-- C4 witness: the two-share holding, selling one requested share. -/
theorem C4_sell_caps_at_held_and_deletes_at_zero_witness :
    (pfTwoShares.sell "A" 10 1 "d2").1 = 1 ∧
    alookup (pfTwoShares.sell "A" 10 1 "d2").2.positions "A" =
      some { shares := 1, avg_price := 10, name := "A" } := by
  have h := C4_sell_caps_at_held_and_deletes_at_zero pfTwoShares "A" 10 1 "d2"
    { shares := 2, avg_price := 10, name := "A" }
    (by norm_num [pfTwoShares, Portfolio.buy, Portfolio.fill, Portfolio.init, cfg0, alookup])
    (by norm_num [nodupKeys, pfTwoShares, Portfolio.buy, Portfolio.fill, Portfolio.init,
          cfg0, alookup, setAssoc])
    (by norm_num)
  refine ⟨h.1.trans (by norm_num), (h.2.2.2 (by norm_num)).trans ?_⟩
  norm_num

/-- CostModel buy-side execution price: quote worsened by slippage. -/
def buyExecPrice (cfg : CostConfig) (price : ℚ) : ℚ :=
  price * (1 + cfg.slippage_pct / 100)

/-- The affordable maximum buy computes on insufficient cash (line 109). -/
def buyMaxShares (pf : Portfolio) (price : ℚ) : ℤ :=
  pyInt (pf.cash / (buyExecPrice pf.cost price * (1 + pf.cost.commission_pct / 100)))

/-- C2: when the commission-inclusive cost of a buy exceeds available cash,
the fill is shrunk to the greatest integer s with
execPrice*s*(1+commissionPct/100) ≤ cash (the iff below is that maximality);
a maximum of zero places no order and leaves the ledger unchanged; and in
the spec scenario capital=100, price=50, commissionPct=10, 2 requested
shares, exactly 1 share fills, costing 55 (cash 45 remains). -/
theorem C2_buy_shrinks_to_affordable_max
    (pf : Portfolio) (ticker : String) (price : ℚ) (shares : ℤ) (date name : String)
    (hp : 0 < price) (hs : 0 < shares)
    (hsl : 0 ≤ pf.cost.slippage_pct) (hc : 0 ≤ pf.cost.commission_pct)
    (hcash : 0 ≤ pf.cash)
    (hover : pf.cash < buyExecPrice pf.cost price * (shares : ℚ)
              + buyExecPrice pf.cost price * (shares : ℚ) * (pf.cost.commission_pct / 100)) :
    (∀ s : ℤ, buyExecPrice pf.cost price * (s : ℚ) * (1 + pf.cost.commission_pct / 100)
        ≤ pf.cash ↔ s ≤ buyMaxShares pf price) ∧
    (pf.buy ticker price shares date name).1
      = (if buyMaxShares pf price ≤ 0 then 0 else buyMaxShares pf price) ∧
    (buyMaxShares pf price ≤ 0 → (pf.buy ticker price shares date name).2 = pf) ∧
    (0 < buyMaxShares pf price → (pf.buy ticker price shares date name).2.cash
      = pf.cash - (buyExecPrice pf.cost price * (buyMaxShares pf price : ℚ)
          + buyExecPrice pf.cost price * (buyMaxShares pf price : ℚ)
            * (pf.cost.commission_pct / 100))) ∧
    ((Portfolio.init 100 { slippage_pct := 0, commission_pct := 10, tax_pct := 0 }).buy
        "X" 50 2 "d" "").1 = 1 ∧
    ((Portfolio.init 100 { slippage_pct := 0, commission_pct := 10, tax_pct := 0 }).buy
        "X" 50 2 "d" "").2.cash = 45 := by
  have hsl' : 0 ≤ pf.cost.slippage_pct / 100 := div_nonneg hsl (by norm_num)
  have hc' : 0 ≤ pf.cost.commission_pct / 100 := div_nonneg hc (by norm_num)
  have hexec : 0 < buyExecPrice pf.cost price := by
    unfold buyExecPrice
    nlinarith
  have hd : 0 < buyExecPrice pf.cost price * (1 + pf.cost.commission_pct / 100) := by
    nlinarith
  have hm : buyMaxShares pf price
      = ⌊pf.cash / (buyExecPrice pf.cost price * (1 + pf.cost.commission_pct / 100))⌋ := by
    unfold buyMaxShares pyInt
    rw [if_pos (div_nonneg hcash hd.le)]
  have hiff : ∀ s : ℤ, buyExecPrice pf.cost price * (s : ℚ)
      * (1 + pf.cost.commission_pct / 100) ≤ pf.cash ↔ s ≤ buyMaxShares pf price := by
    intro s
    have heq : buyExecPrice pf.cost price * (s : ℚ) * (1 + pf.cost.commission_pct / 100)
        = (s : ℚ) * (buyExecPrice pf.cost price * (1 + pf.cost.commission_pct / 100)) := by
      ring
    rw [heq, hm, Int.le_floor, le_div_iff₀ hd]
  have hbuy : pf.buy ticker price shares date name
      = (if buyMaxShares pf price ≤ 0 then (0, pf)
         else (buyMaxShares pf price,
               pf.fill ticker price (buyExecPrice pf.cost price)
                 (buyMaxShares pf price) date name)) := by
    simp only [buyExecPrice] at hover
    simp only [Portfolio.buy, buyExecPrice, buyMaxShares]
    rw [if_neg (by push_neg; exact ⟨hs, hp⟩), if_pos hover]
  refine ⟨hiff, ?_, ?_, ?_, ?_, ?_⟩
  · rw [hbuy]
    by_cases h0 : buyMaxShares pf price ≤ 0
    · rw [if_pos h0, if_pos h0]
    · rw [if_neg h0, if_neg h0]
  · intro h0
    rw [hbuy, if_pos h0]
  · intro h0
    rw [hbuy, if_neg (by omega)]
    simp only [Portfolio.fill]
  · norm_num [Portfolio.buy, Portfolio.fill, Portfolio.init, pyInt, alookup]
  · norm_num [Portfolio.buy, Portfolio.fill, Portfolio.init, pyInt, alookup]

/-- C2 witness: the spec scenario itself discharges every hypothesis. -/
theorem C2_buy_shrinks_to_affordable_max_witness :
    ((Portfolio.init 100 { slippage_pct := 0, commission_pct := 10, tax_pct := 0 }).buy
        "X" 50 2 "d" "").1 = 1 ∧
    ((Portfolio.init 100 { slippage_pct := 0, commission_pct := 10, tax_pct := 0 }).buy
        "X" 50 2 "d" "").2.cash = 45 := by
  have h := C2_buy_shrinks_to_affordable_max
    (Portfolio.init 100 { slippage_pct := 0, commission_pct := 10, tax_pct := 0 })
    "X" 50 2 "d" "" (by norm_num) (by norm_num)
    (by norm_num [Portfolio.init]) (by norm_num [Portfolio.init])
    (by norm_num [Portfolio.init])
    (by norm_num [Portfolio.init, buyExecPrice])
  exact ⟨h.2.2.2.2.1, h.2.2.2.2.2⟩

theorem sell_positions_other (pf : Portfolio) (t t' : String) (p : ℚ) (s : ℤ)
    (d : String) (h : t ≠ t') :
    alookup (pf.sell t' p s d).2.positions t = alookup pf.positions t := by
  simp only [Portfolio.sell]
  cases hl : alookup pf.positions t' with
  | none => rfl
  | some pos =>
    simp only []
    split_ifs
    · exact alookup_delAssoc_ne _ _ _ h
    · exact alookup_setAssoc_ne _ _ _ _ h

theorem sell_positions_none (pf : Portfolio) (t t' : String) (p : ℚ) (s : ℤ)
    (d : String) (h : alookup pf.positions t = none) :
    alookup (pf.sell t' p s d).2.positions t = none := by
  by_cases he : t = t'
  · subst he
    simp only [Portfolio.sell, h]
  · rw [sell_positions_other pf t t' p s d he]
    exact h

theorem sell_positions_self_full (pf : Portfolio) (t : String) (p : ℚ) (d : String)
    (pos : Position) (hpos : alookup pf.positions t = some pos)
    (hnd : nodupKeys pf.positions) :
    alookup (pf.sell t p pos.shares d).2.positions t = none := by
  simp only [Portfolio.sell, hpos]
  rw [if_pos (by omega), alookup_delAssoc_self _ _ hnd]

theorem sell_nodupKeys (pf : Portfolio) (t : String) (p : ℚ) (s : ℤ) (d : String)
    (hnd : nodupKeys pf.positions) : nodupKeys (pf.sell t p s d).2.positions := by
  simp only [Portfolio.sell]
  cases hl : alookup pf.positions t with
  | none => exact hnd
  | some pos =>
    simp only []
    split_ifs
    · exact nodupKeys_delAssoc _ _ hnd
    · exact nodupKeys_setAssoc _ _ _ hnd

theorem sellAllStep_positions_none (prices : List (String × ℚ)) (date : String)
    (pf : Portfolio) (k t : String) (h : alookup pf.positions t = none) :
    alookup (sellAllStep prices date pf k).positions t = none := by
  unfold sellAllStep
  cases alookup prices k with
  | none => exact h
  | some p =>
    cases alookup pf.positions k with
    | none => exact h
    | some pos => exact sell_positions_none pf t k p pos.shares date h

theorem sellAllStep_nodupKeys (prices : List (String × ℚ)) (date : String)
    (pf : Portfolio) (k : String) (hnd : nodupKeys pf.positions) :
    nodupKeys (sellAllStep prices date pf k).positions := by
  unfold sellAllStep
  cases alookup prices k with
  | none => exact hnd
  | some p =>
    cases alookup pf.positions k with
    | none => exact hnd
    | some pos => exact sell_nodupKeys pf k p pos.shares date hnd

theorem sellAll_fold_none (prices : List (String × ℚ)) (date : String)
    (ks : List String) (pf : Portfolio) (t : String)
    (h : alookup pf.positions t = none) :
    alookup (ks.foldl (sellAllStep prices date) pf).positions t = none := by
  induction ks generalizing pf with
  | nil => exact h
  | cons k ks ih =>
    exact ih _ (sellAllStep_positions_none prices date pf k t h)

theorem sellAll_fold_unpriced (prices : List (String × ℚ)) (date : String)
    (ks : List String) (pf : Portfolio) (t : String)
    (h : alookup prices t = none) :
    alookup (ks.foldl (sellAllStep prices date) pf).positions t
      = alookup pf.positions t := by
  induction ks generalizing pf with
  | nil => rfl
  | cons k ks ih =>
    rw [List.foldl_cons, ih]
    unfold sellAllStep
    cases hp : alookup prices k with
    | none => rfl
    | some p =>
      cases alookup pf.positions k with
      | none => rfl
      | some pos =>
        have hne : t ≠ k := by
          intro he
          rw [he, hp] at h
          exact Option.noConfusion h
        exact sell_positions_other pf t k p pos.shares date hne

theorem sellAll_fold_priced (prices : List (String × ℚ)) (date : String)
    (ks : List String) (pf : Portfolio) (t : String) (p : ℚ)
    (hnd : nodupKeys pf.positions) (hmem : t ∈ ks) (hp : alookup prices t = some p) :
    alookup (ks.foldl (sellAllStep prices date) pf).positions t = none := by
  induction ks generalizing pf with
  | nil => exact absurd hmem (List.not_mem_nil t)
  | cons k ks ih =>
    rw [List.foldl_cons]
    by_cases he : t = k
    · subst he
      have hstep : alookup (sellAllStep prices date pf t).positions t = none := by
        unfold sellAllStep
        rw [hp]
        cases hl : alookup pf.positions t with
        | none => exact hl
        | some pos => exact sell_positions_self_full pf t p date pos hl hnd
      exact sellAll_fold_none prices date ks _ t hstep
    · have hmem' : t ∈ ks := by
        rcases List.mem_cons.mp hmem with h | h
        · exact absurd h he
        · exact h
      exact ih _ (sellAllStep_nodupKeys prices date pf k hnd) hmem'

/-- C7 counterexample: holding one share of A, sellAll with a price map that
has no mark for A leaves the position open, so open positions can remain
after sellAll returns. -/
theorem C7_counterexample_unmarked_ticker_survives_sell_all :
    (pfOneShare.sell_all [("B", 5)] "d2").positions ≠ [] := by
  have hBA : ¬ (("B" : String) = "A") := by decide
  norm_num [pfOneShare, Portfolio.sell_all, sellAllStep, Portfolio.buy, Portfolio.fill,
    Portfolio.init, cfg0, alookup, hBA]

/-- C7 amended: sellAll liquidates exactly the open positions whose ticker
appears in the supplied price map; a held ticker absent from the map keeps
its position unchanged (so open positions can remain). -/
theorem C7_sell_all_liquidates_marked_positions
    (pf : Portfolio) (prices : List (String × ℚ)) (date : String) (t : String)
    (pos : Position) (hnd : nodupKeys pf.positions)
    (hpos : alookup pf.positions t = some pos) :
    ((∃ p, alookup prices t = some p) →
        alookup (pf.sell_all prices date).positions t = none) ∧
    (alookup prices t = none →
        alookup (pf.sell_all prices date).positions t = some pos) := by
  constructor
  · rintro ⟨p, hp⟩
    unfold Portfolio.sell_all
    exact sellAll_fold_priced prices date _ pf t p hnd (alookup_some_mem_keys hpos) hp
  · intro hnone
    unfold Portfolio.sell_all
    rw [sellAll_fold_unpriced prices date _ pf t hnone]
    exact hpos

/-- C7 witness: with the mark supplied, the held position is liquidated. -/
theorem C7_sell_all_liquidates_marked_positions_witness :
    alookup (pfOneShare.sell_all [("A", 12)] "d2").positions "A" = none := by
  have h := C7_sell_all_liquidates_marked_positions pfOneShare [("A", 12)] "d2" "A"
    { shares := 1, avg_price := 10, name := "A" }
    (by norm_num [nodupKeys, pfOneShare, Portfolio.buy, Portfolio.fill, Portfolio.init,
          cfg0, alookup, setAssoc])
    (by norm_num [pfOneShare, Portfolio.buy, Portfolio.fill, Portfolio.init, cfg0, alookup])
  exact h.1 ⟨12, by norm_num [alookup]⟩

/-- Every stored position has a positive share count. -/
def posSharesPos (pf : Portfolio) : Prop := ∀ p ∈ pf.positions, 0 < p.2.shares

/-- The three cumulative cost counters are non-negative. -/
def costCountersNonneg (pf : Portfolio) : Prop :=
  0 ≤ pf.total_slippage_cost ∧ 0 ≤ pf.total_commission_cost ∧ 0 ≤ pf.total_tax_cost

/-- A cost configuration under which sells cannot produce negative prices:
non-negative rates with slippage at most 100%. -/
def saneCost (cfg : CostConfig) : Prop :=
  0 ≤ cfg.slippage_pct ∧ cfg.slippage_pct ≤ 100 ∧
  0 ≤ cfg.commission_pct ∧ 0 ≤ cfg.tax_pct

theorem fill_invariant (pf : Portfolio) (t : String) (price exec : ℚ) (shares : ℤ)
    (date name : String) (hpe : price ≤ exec) (hs : 0 < shares) (hex : 0 ≤ exec)
    (hc : 0 ≤ pf.cost.commission_pct)
    (hpos : posSharesPos pf) (hcnt : costCountersNonneg pf) :
    posSharesPos (pf.fill t price exec shares date name) ∧
    costCountersNonneg (pf.fill t price exec shares date name) ∧
    (pf.fill t price exec shares date name).cost = pf.cost := by
  obtain ⟨h1, h2, h3⟩ := hcnt
  have hsq : (0 : ℚ) < (shares : ℚ) := by exact_mod_cast hs
  have hslip : 0 ≤ (exec - price) * (shares : ℚ) := by nlinarith
  have hcomm : 0 ≤ exec * (shares : ℚ) * (pf.cost.commission_pct / 100) := by
    have : 0 ≤ pf.cost.commission_pct / 100 := div_nonneg hc (by norm_num)
    positivity
  refine ⟨?_, ⟨by simp only [Portfolio.fill]; linarith,
               by simp only [Portfolio.fill]; linarith,
               by simp only [Portfolio.fill]; linarith⟩,
          by simp only [Portfolio.fill]⟩
  intro q hq
  simp only [Portfolio.fill] at hq
  rcases hm : alookup pf.positions t with _ | pos
  · rw [hm] at hq
    simp only [] at hq
    rcases List.mem_append.mp hq with h | h
    · exact hpos q h
    · simp only [List.mem_singleton] at h
      subst h
      exact hs
  · rw [hm] at hq
    simp only [] at hq
    rcases mem_setAssoc hq with h | h
    · have hold : 0 < pos.shares := hpos (t, pos) (alookup_some_mem hm)
      subst h
      simp only []
      omega
    · exact hpos q h

theorem buy_invariant (pf : Portfolio) (t : String) (price : ℚ) (shares : ℤ)
    (date name : String) (hcfg : saneCost pf.cost) (hp : 0 < price)
    (hpos : posSharesPos pf) (hcnt : costCountersNonneg pf) :
    posSharesPos (pf.buy t price shares date name).2 ∧
    costCountersNonneg (pf.buy t price shares date name).2 ∧
    (pf.buy t price shares date name).2.cost = pf.cost := by
  obtain ⟨hsl, _, hc, _⟩ := hcfg
  have hsl' : 0 ≤ pf.cost.slippage_pct / 100 := div_nonneg hsl (by norm_num)
  have hpe : price ≤ price * (1 + pf.cost.slippage_pct / 100) := by nlinarith
  have hex : 0 ≤ price * (1 + pf.cost.slippage_pct / 100) := by nlinarith
  by_cases h0 : shares ≤ 0 ∨ price ≤ 0
  · simp only [Portfolio.buy, if_pos h0]
    exact ⟨hpos, hcnt, trivial⟩
  · have hs : 0 < shares := by
      push_neg at h0
      exact h0.1
    simp only [Portfolio.buy, if_neg h0]
    by_cases hcash : pf.cash < price * (1 + pf.cost.slippage_pct / 100) * (shares : ℚ)
        + price * (1 + pf.cost.slippage_pct / 100) * (shares : ℚ)
          * (pf.cost.commission_pct / 100)
    · rw [if_pos hcash]
      by_cases hmax : pyInt (pf.cash / (price * (1 + pf.cost.slippage_pct / 100)
          * (1 + pf.cost.commission_pct / 100))) ≤ 0
      · rw [if_pos hmax]
        exact ⟨hpos, hcnt, rfl⟩
      · rw [if_neg hmax]
        exact fill_invariant pf t price _ _ date name hpe (by omega) hex hc hpos hcnt
    · rw [if_neg hcash]
      exact fill_invariant pf t price _ _ date name hpe hs hex hc hpos hcnt

theorem sell_invariant (pf : Portfolio) (t : String) (price : ℚ) (shares : ℤ)
    (date : String) (hcfg : saneCost pf.cost) (hp : 0 < price) (hs : 0 < shares)
    (hpos : posSharesPos pf) (hcnt : costCountersNonneg pf) :
    posSharesPos (pf.sell t price shares date).2 ∧
    costCountersNonneg (pf.sell t price shares date).2 ∧
    (pf.sell t price shares date).2.cost = pf.cost := by
  obtain ⟨hsl, hsl2, hc, ht⟩ := hcfg
  obtain ⟨h1, h2, h3⟩ := hcnt
  rcases hm : alookup pf.positions t with _ | pos
  · simp only [Portfolio.sell, hm]
    exact ⟨hpos, ⟨h1, h2, h3⟩, trivial⟩
  · have hold : 0 < pos.shares := hpos (t, pos) (alookup_some_mem hm)
    have hact : 0 < min shares pos.shares := lt_min hs hold
    have hactq : (0 : ℚ) < ((min shares pos.shares : ℤ) : ℚ) := by exact_mod_cast hact
    have h1s : (0 : ℚ) ≤ 1 - pf.cost.slippage_pct / 100 := by
      have := (div_le_one (by norm_num : (0:ℚ) < 100)).mpr hsl2
      linarith
    have hex : 0 ≤ price * (1 - pf.cost.slippage_pct / 100) := mul_nonneg hp.le h1s
    have hgross : 0 ≤ price * (1 - pf.cost.slippage_pct / 100)
        * ((min shares pos.shares : ℤ) : ℚ) := by positivity
    have hcomm : 0 ≤ price * (1 - pf.cost.slippage_pct / 100)
        * ((min shares pos.shares : ℤ) : ℚ) * (pf.cost.commission_pct / 100) := by
      have : 0 ≤ pf.cost.commission_pct / 100 := div_nonneg hc (by norm_num)
      positivity
    have htax : 0 ≤ price * (1 - pf.cost.slippage_pct / 100)
        * ((min shares pos.shares : ℤ) : ℚ) * (pf.cost.tax_pct / 100) := by
      have : 0 ≤ pf.cost.tax_pct / 100 := div_nonneg ht (by norm_num)
      positivity
    have hslip : 0 ≤ (price - price * (1 - pf.cost.slippage_pct / 100))
        * ((min shares pos.shares : ℤ) : ℚ) := by
      have he : price - price * (1 - pf.cost.slippage_pct / 100)
          = price * (pf.cost.slippage_pct / 100) := by ring
      rw [he]
      exact mul_nonneg (mul_nonneg hp.le (div_nonneg hsl (by norm_num))) hactq.le
    refine ⟨?_, ⟨by simp only [Portfolio.sell, hm]; linarith,
                 by simp only [Portfolio.sell, hm]; linarith,
                 by simp only [Portfolio.sell, hm]; linarith⟩,
            by simp only [Portfolio.sell, hm]⟩
    intro q hq
    simp only [Portfolio.sell, hm] at hq
    by_cases hd : pos.shares - min shares pos.shares ≤ 0
    · rw [if_pos hd] at hq
      exact hpos q (mem_delAssoc hq)
    · rw [if_neg hd] at hq
      rcases mem_setAssoc hq with h | h
      · subst h
        simp only []
        omega
      · exact hpos q h

theorem applyOps_invariant (ops : List Op) (pf : Portfolio)
    (hcfg : saneCost pf.cost) (hvalid : ∀ op ∈ ops, opValid op)
    (hpos : posSharesPos pf) (hcnt : costCountersNonneg pf) :
    posSharesPos (applyOps pf ops) ∧ costCountersNonneg (applyOps pf ops) ∧
    (applyOps pf ops).cost = pf.cost := by
  induction ops generalizing pf with
  | nil => exact ⟨hpos, hcnt, rfl⟩
  | cons op ops ih =>
    have hop : opValid op := hvalid op (List.mem_cons_self _ _)
    have hrest : ∀ o ∈ ops, opValid o := fun o ho => hvalid o (List.mem_cons_of_mem _ ho)
    have hstep : posSharesPos (applyOp pf op) ∧ costCountersNonneg (applyOp pf op) ∧
        (applyOp pf op).cost = pf.cost := by
      cases op with
      | buyOp t p s d n => exact buy_invariant pf t p s d n hcfg hop.1 hpos hcnt
      | sellOp t p s d => exact sell_invariant pf t p s d hcfg hop.1 hop.2 hpos hcnt
    have := ih (applyOp pf op) (by rw [hstep.2.2]; exact hcfg) hrest hstep.1 hstep.2.1
    exact ⟨this.1, this.2.1, this.2.2.trans hstep.2.2⟩

/-- C9 counterexample: slippage 0.4%, commission 0.4%, one valid buy of one
share at 100.  The raw counters are 0.4 and 0.4016, so the rounded fields
are 0, 0, 0 but the total field (the rounding of the raw sum 0.8016) is 1:
the fields do not add up to the total. -/
theorem C9_counterexample_rounded_fields_do_not_sum_to_total :
    ¬ ((applyOps (Portfolio.init 1000
          { slippage_pct := 2/5, commission_pct := 2/5, tax_pct := 0 })
          [Op.buyOp "A" 100 1 "d" "A"]).get_cost_summary.slippage
        + (applyOps (Portfolio.init 1000
            { slippage_pct := 2/5, commission_pct := 2/5, tax_pct := 0 })
            [Op.buyOp "A" 100 1 "d" "A"]).get_cost_summary.commission
        + (applyOps (Portfolio.init 1000
            { slippage_pct := 2/5, commission_pct := 2/5, tax_pct := 0 })
            [Op.buyOp "A" 100 1 "d" "A"]).get_cost_summary.tax
      = (applyOps (Portfolio.init 1000
          { slippage_pct := 2/5, commission_pct := 2/5, tax_pct := 0 })
          [Op.buyOp "A" 100 1 "d" "A"]).get_cost_summary.total) := by
  norm_num [applyOps, applyOp, Portfolio.buy, Portfolio.fill, Portfolio.init,
    Portfolio.get_cost_summary, alookup, pyRound]

/-- C9 amended: over any valid order sequence (positive prices and share
counts) under non-negative rates with slippage at most 100%, the rounded
slippage, commission and tax fields are each non-negative, and the total
field is the rounding of the sum of the raw counters — which, as the
counterexample shows, can differ from the sum of the three rounded fields. -/
theorem C9_cost_summary_nonneg_and_total_rounds_raw_sum
    (cap : ℚ) (cfg : CostConfig) (ops : List Op)
    (hsl : 0 ≤ cfg.slippage_pct) (hsl2 : cfg.slippage_pct ≤ 100)
    (hc : 0 ≤ cfg.commission_pct) (ht : 0 ≤ cfg.tax_pct)
    (hvalid : ∀ op ∈ ops, opValid op) :
    0 ≤ (applyOps (Portfolio.init cap cfg) ops).get_cost_summary.slippage ∧
    0 ≤ (applyOps (Portfolio.init cap cfg) ops).get_cost_summary.commission ∧
    0 ≤ (applyOps (Portfolio.init cap cfg) ops).get_cost_summary.tax ∧
    (applyOps (Portfolio.init cap cfg) ops).get_cost_summary.total
      = pyRound ((applyOps (Portfolio.init cap cfg) ops).total_slippage_cost
          + (applyOps (Portfolio.init cap cfg) ops).total_commission_cost
          + (applyOps (Portfolio.init cap cfg) ops).total_tax_cost) := by
  have hinv := applyOps_invariant ops (Portfolio.init cap cfg)
    (by exact ⟨hsl, hsl2, hc, ht⟩) hvalid
    (by intro p hp; simp [Portfolio.init] at hp)
    (by exact ⟨le_refl 0, le_refl 0, le_refl 0⟩)
  obtain ⟨-, ⟨h1, h2, h3⟩, -⟩ := hinv
  exact ⟨pyRound_nonneg h1, pyRound_nonneg h2, pyRound_nonneg h3, rfl⟩

/-- C9 witness: one valid buy under 10% commission. -/
theorem C9_cost_summary_nonneg_and_total_rounds_raw_sum_witness :
    0 ≤ (applyOps (Portfolio.init 1000
          { slippage_pct := 0, commission_pct := 10, tax_pct := 0 })
          [Op.buyOp "A" 100 1 "d" "A"]).get_cost_summary.slippage ∧
    0 ≤ (applyOps (Portfolio.init 1000
          { slippage_pct := 0, commission_pct := 10, tax_pct := 0 })
          [Op.buyOp "A" 100 1 "d" "A"]).get_cost_summary.commission ∧
    0 ≤ (applyOps (Portfolio.init 1000
          { slippage_pct := 0, commission_pct := 10, tax_pct := 0 })
          [Op.buyOp "A" 100 1 "d" "A"]).get_cost_summary.tax ∧
    (applyOps (Portfolio.init 1000
          { slippage_pct := 0, commission_pct := 10, tax_pct := 0 })
          [Op.buyOp "A" 100 1 "d" "A"]).get_cost_summary.total
      = pyRound ((applyOps (Portfolio.init 1000
            { slippage_pct := 0, commission_pct := 10, tax_pct := 0 })
            [Op.buyOp "A" 100 1 "d" "A"]).total_slippage_cost
          + (applyOps (Portfolio.init 1000
              { slippage_pct := 0, commission_pct := 10, tax_pct := 0 })
              [Op.buyOp "A" 100 1 "d" "A"]).total_commission_cost
          + (applyOps (Portfolio.init 1000
              { slippage_pct := 0, commission_pct := 10, tax_pct := 0 })
              [Op.buyOp "A" 100 1 "d" "A"]).total_tax_cost) := by
  refine C9_cost_summary_nonneg_and_total_rounds_raw_sum 1000
    { slippage_pct := 0, commission_pct := 10, tax_pct := 0 }
    [Op.buyOp "A" 100 1 "d" "A"] (by norm_num) (by norm_num) (by norm_num) (by norm_num) ?_
  intro op hop
  simp only [List.mem_singleton] at hop
  subst hop
  exact ⟨by norm_num, by norm_num⟩

theorem closeLastOpenAux_none_iff (tk : String) (upd : TradeRecord → TradeRecord)
    (l : List TradeRecord) :
    closeLastOpenAux tk upd l = none ↔
      ∀ r ∈ l, ¬(r.ticker = tk ∧ r.status = "open") := by
  induction l with
  | nil => simp [closeLastOpenAux]
  | cons t ts ih =>
    cases ha : closeLastOpenAux tk upd ts with
    | some ts' =>
      simp only [closeLastOpenAux, ha]
      constructor
      · intro h
        exact Option.noConfusion h
      · intro h
        have : closeLastOpenAux tk upd ts = none := by
          rw [ih]
          intro r hr
          exact h r (List.mem_cons_of_mem _ hr)
        rw [this] at ha
        exact Option.noConfusion ha
    | none =>
      simp only [closeLastOpenAux, ha]
      by_cases hm : t.ticker = tk ∧ t.status = "open"
      · rw [if_pos hm]
        constructor
        · intro h
          exact Option.noConfusion h
        · intro h
          exact absurd hm (h t (List.mem_cons_self _ _))
      · rw [if_neg hm]
        constructor
        · intro _ r hr
          rcases List.mem_cons.mp hr with h | h
          · rw [h]
            exact hm
          · exact (ih.mp ha) r h
        · intro _
          rfl

theorem closeLastOpenAux_some_length (tk : String) (upd : TradeRecord → TradeRecord) :
    ∀ (l l' : List TradeRecord), closeLastOpenAux tk upd l = some l' →
      l'.length = l.length := by
  intro l
  induction l with
  | nil =>
    intro l' h
    exact Option.noConfusion h
  | cons t ts ih =>
    intro l' h
    cases ha : closeLastOpenAux tk upd ts with
    | some ts' =>
      rw [closeLastOpenAux, ha] at h
      simp only [Option.some.injEq] at h
      subst h
      simp [ih ts' ha]
    | none =>
      rw [closeLastOpenAux, ha] at h
      by_cases hm : t.ticker = tk ∧ t.status = "open"
      · rw [if_pos hm] at h
        simp only [Option.some.injEq] at h
        subst h
        simp
      · rw [if_neg hm] at h
        exact Option.noConfusion h

theorem closeLastOpenAux_decomp (tk : String) (upd : TradeRecord → TradeRecord)
    (l : List TradeRecord) (hex : ∃ r ∈ l, r.ticker = tk ∧ r.status = "open") :
    ∃ l₁ r l₂, l = l₁ ++ r :: l₂ ∧ r.ticker = tk ∧ r.status = "open" ∧
      (∀ r' ∈ l₂, ¬(r'.ticker = tk ∧ r'.status = "open")) ∧
      closeLastOpenAux tk upd l = some (l₁ ++ upd r :: l₂) := by
  induction l with
  | nil =>
    obtain ⟨r, hr, -⟩ := hex
    exact absurd hr (List.not_mem_nil r)
  | cons t ts ih =>
    cases ha : closeLastOpenAux tk upd ts with
    | some ts' =>
      have hex' : ∃ r ∈ ts, r.ticker = tk ∧ r.status = "open" := by
        by_contra hno
        push_neg at hno
        have : closeLastOpenAux tk upd ts = none :=
          (closeLastOpenAux_none_iff tk upd ts).mpr fun r hr => by
            intro hc
            exact (hno r hr hc.1) hc.2
        rw [this] at ha
        exact Option.noConfusion ha
      obtain ⟨l₁, r, l₂, hdec, htk, hst, hnone, haux⟩ := ih hex'
      refine ⟨t :: l₁, r, l₂, by rw [hdec, List.cons_append], htk, hst, hnone, ?_⟩
      simp only [closeLastOpenAux, haux, List.cons_append]
    | none =>
      have hnone : ∀ r ∈ ts, ¬(r.ticker = tk ∧ r.status = "open") :=
        (closeLastOpenAux_none_iff tk upd ts).mp ha
      have hm : t.ticker = tk ∧ t.status = "open" := by
        obtain ⟨r, hr, hc⟩ := hex
        rcases List.mem_cons.mp hr with h | h
        · rw [← h]
          exact hc
        · exact absurd hc (hnone r h)
      refine ⟨[], t, ts, rfl, hm.1, hm.2, hnone, ?_⟩
      rw [closeLastOpenAux, ha, if_pos hm]
      rfl

theorem closeLastOpen_getElem (tk : String) (upd : TradeRecord → TradeRecord)
    (l : List TradeRecord) (i : ℕ) (old : TradeRecord) (h : l[i]? = some old) :
    ∃ new, (closeLastOpen tk upd l)[i]? = some new ∧
      (new = old ∨ (old.ticker = tk ∧ old.status = "open" ∧ new = upd old)) := by
  unfold closeLastOpen
  cases ha : closeLastOpenAux tk upd l with
  | none => exact ⟨old, h, Or.inl rfl⟩
  | some l' =>
    by_cases hex : ∃ r ∈ l, r.ticker = tk ∧ r.status = "open"
    · obtain ⟨l₁, r, l₂, hdec, htk, hst, -, haux⟩ := closeLastOpenAux_decomp tk upd l hex
      rw [haux] at ha
      simp only [Option.some.injEq] at ha
      subst ha
      subst hdec
      simp only [Option.getD_some]
      rcases lt_trichotomy i l₁.length with hi | hi | hi
      · refine ⟨old, ?_, Or.inl rfl⟩
        rw [List.getElem?_append, if_pos hi] at h ⊢
        exact h
      · subst hi
        rw [List.getElem?_append, if_neg (lt_irrefl _), Nat.sub_self] at h
        simp only [List.getElem?_cons_zero, Option.some.injEq] at h
        subst h
        refine ⟨upd r, ?_, Or.inr ⟨htk, hst, rfl⟩⟩
        rw [List.getElem?_append, if_neg (lt_irrefl _), Nat.sub_self]
        exact List.getElem?_cons_zero
      · refine ⟨old, ?_, Or.inl rfl⟩
        rw [List.getElem?_append, if_neg (by omega)] at h ⊢
        rcases Nat.exists_eq_add_of_lt hi with ⟨j, hj⟩
        have hsub : i - l₁.length = j + 1 := by omega
        rw [hsub] at h ⊢
        rw [List.getElem?_cons_succ] at h ⊢
        exact h
    · rw [(closeLastOpenAux_none_iff tk upd l).mpr (by push_neg at hex; intro r hr hc; exact (hex r hr hc.1) hc.2)] at ha
      exact Option.noConfusion ha

/-- How a ledger operation may change an already-recorded TradeRecord: a
closed record is never touched again, and a record still open afterwards
was not touched at all (the only possible change is open to closed). -/
def tradeEvol (old new : TradeRecord) : Prop :=
  (old.status = "closed" → new = old) ∧ (new.status = "open" → new = old)

theorem tradeEvol_refl (t : TradeRecord) : tradeEvol t t :=
  ⟨fun _ => rfl, fun _ => rfl⟩

theorem tradeEvol_trans {a b c : TradeRecord} (h1 : tradeEvol a b)
    (h2 : tradeEvol b c) : tradeEvol a c := by
  constructor
  · intro ha
    have hb : b = a := h1.1 ha
    rw [← hb]
    apply h2.1
    rw [hb, ha]
  · intro hc
    have hb : c = b := h2.2 hc
    rw [hb]
    apply h1.2
    rw [← hb, hc]

theorem closeLastOpen_length (tk : String) (upd : TradeRecord → TradeRecord)
    (l : List TradeRecord) : (closeLastOpen tk upd l).length = l.length := by
  unfold closeLastOpen
  cases ha : closeLastOpenAux tk upd l with
  | none => rfl
  | some l' => exact closeLastOpenAux_some_length tk upd l l' ha

theorem buy_trades_cases (pf : Portfolio) (t : String) (p : ℚ) (s : ℤ) (d n : String) :
    (pf.buy t p s d n).2.trades = pf.trades ∨
    ∃ rec, (pf.buy t p s d n).2.trades = pf.trades ++ [rec] := by
  simp only [Portfolio.buy, Portfolio.fill]
  split_ifs <;> first | exact Or.inl rfl | exact Or.inr ⟨_, rfl⟩

theorem sellCloseUpd_status (date : String) (price exec ec pn pp : ℚ)
    (t : TradeRecord) : (sellCloseUpd date price exec ec pn pp t).status = "closed" :=
  rfl

theorem applyOp_trades_getElem (pf : Portfolio) (op : Op) (i : ℕ) (old : TradeRecord)
    (h : pf.trades[i]? = some old) :
    ∃ new, (applyOp pf op).trades[i]? = some new ∧ tradeEvol old new := by
  cases op with
  | buyOp t p s d n =>
    rcases buy_trades_cases pf t p s d n with hc | ⟨rec, hc⟩
    · exact ⟨old, by rw [applyOp, hc]; exact h, tradeEvol_refl old⟩
    · refine ⟨old, ?_, tradeEvol_refl old⟩
      rw [applyOp, hc, List.getElem?_append,
        if_pos (List.getElem?_eq_some.mp h).1]
      exact h
  | sellOp t p s d =>
    simp only [applyOp, Portfolio.sell]
    cases hm : alookup pf.positions t with
    | none => exact ⟨old, h, tradeEvol_refl old⟩
    | some pos =>
      simp only []
      obtain ⟨new, hnew, hor⟩ := closeLastOpen_getElem t
        (sellCloseUpd d p (p * (1 - pf.cost.slippage_pct / 100)) _ _ _) pf.trades i old h
      refine ⟨new, hnew, ?_⟩
      rcases hor with hEq | ⟨-, hopen, hupd⟩
      · rw [hEq]
        exact tradeEvol_refl old
      · constructor
        · intro hcl
          rw [hopen] at hcl
          exact absurd hcl (by decide)
        · intro hop
          rw [hupd, sellCloseUpd_status] at hop
          exact absurd hop (by decide)

theorem applyOp_trades_length (pf : Portfolio) (op : Op) :
    pf.trades.length ≤ (applyOp pf op).trades.length := by
  cases op with
  | buyOp t p s d n =>
    rcases buy_trades_cases pf t p s d n with hc | ⟨rec, hc⟩
    · rw [applyOp, hc]
    · rw [applyOp, hc]
      simp
  | sellOp t p s d =>
    simp only [applyOp, Portfolio.sell]
    cases hm : alookup pf.positions t with
    | none => exact le_refl _
    | some pos =>
      simp only []
      rw [closeLastOpen_length]

theorem applyOps_trades_getElem (ops : List Op) (pf : Portfolio) (i : ℕ)
    (old : TradeRecord) (h : pf.trades[i]? = some old) :
    ∃ new, (applyOps pf ops).trades[i]? = some new ∧ tradeEvol old new := by
  induction ops generalizing pf old with
  | nil => exact ⟨old, h, tradeEvol_refl old⟩
  | cons op ops ih =>
    obtain ⟨mid, hmid, h1⟩ := applyOp_trades_getElem pf op i old h
    obtain ⟨new, hnew, h2⟩ := ih (applyOp pf op) mid hmid
    exact ⟨new, hnew, tradeEvol_trans h1 h2⟩

theorem applyOps_trades_length (ops : List Op) (pf : Portfolio) :
    pf.trades.length ≤ (applyOps pf ops).trades.length := by
  induction ops generalizing pf with
  | nil => exact le_refl _
  | cons op ops ih =>
    exact le_trans (applyOp_trades_length pf op) (ih (applyOp pf op))

theorem sell_trades_close (pf : Portfolio) (t : String) (price : ℚ) (sh : ℤ)
    (date : String) (pos : Position) (hm : alookup pf.positions t = some pos)
    (hex : ∃ r ∈ pf.trades, r.ticker = t ∧ r.status = "open") :
    ∃ l₁ r l₂, pf.trades = l₁ ++ r :: l₂ ∧ r.ticker = t ∧ r.status = "open" ∧
      (∀ r' ∈ l₂, ¬(r'.ticker = t ∧ r'.status = "open")) ∧
      (pf.sell t price sh date).2.trades
        = l₁ ++ pf.sellUpd pos price (min sh pos.shares) date r :: l₂ := by
  obtain ⟨l₁, r, l₂, hdec, htk, hst, hnone, haux⟩ :=
    closeLastOpenAux_decomp t (pf.sellUpd pos price (min sh pos.shares) date)
      pf.trades hex
  refine ⟨l₁, r, l₂, hdec, htk, hst, hnone, ?_⟩
  simp only [Portfolio.sell, hm, closeLastOpen, haux, Option.getD_some]

theorem sellUpd_status (pf : Portfolio) (pos : Position) (price : ℚ) (a : ℤ)
    (date : String) (x : TradeRecord) :
    (pf.sellUpd pos price a date x).status = "closed" := rfl

theorem sellUpd_shares (pf : Portfolio) (pos : Position) (price : ℚ) (a : ℤ)
    (date : String) (x : TradeRecord) :
    (pf.sellUpd pos price a date x).shares = x.shares := rfl

theorem sellUpd_ticker (pf : Portfolio) (pos : Position) (price : ℚ) (a : ℤ)
    (date : String) (x : TradeRecord) :
    (pf.sellUpd pos price a date x).ticker = x.ticker := rfl

theorem sellUpd_entry_date (pf : Portfolio) (pos : Position) (price : ℚ) (a : ℤ)
    (date : String) (x : TradeRecord) :
    (pf.sellUpd pos price a date x).entry_date = x.entry_date := rfl

theorem sellUpd_entry_price (pf : Portfolio) (pos : Position) (price : ℚ) (a : ℤ)
    (date : String) (x : TradeRecord) :
    (pf.sellUpd pos price a date x).entry_price = x.entry_price := rfl

theorem sellUpd_exit_date (pf : Portfolio) (pos : Position) (price : ℚ) (a : ℤ)
    (date : String) (x : TradeRecord) :
    (pf.sellUpd pos price a date x).exit_date = some date := rfl

theorem sellUpd_pnl (pf : Portfolio) (pos : Position) (price : ℚ) (a : ℤ)
    (date : String) (x : TradeRecord) :
    (pf.sellUpd pos price a date x).pnl
      = pyRoundTo 0 (price * (1 - pf.cost.slippage_pct / 100) * (a : ℚ)
          - price * (1 - pf.cost.slippage_pct / 100) * (a : ℚ)
            * (pf.cost.commission_pct / 100)
          - price * (1 - pf.cost.slippage_pct / 100) * (a : ℚ)
            * (pf.cost.tax_pct / 100)
          - pos.avg_price * (a : ℚ)) := rfl

/-- C5: the trade list is append-only (length never shrinks and recorded
entries keep their index), a closed TradeRecord is never modified again and
a still-open one was never modified at all (so open-to-closed happens at
most once and never reverses) under any sequence of buy/sell operations;
and a sell that fills a positive amount completes exactly the last-created
still-open TradeRecord of its ticker (the LIFO match), leaving both the
earlier records and the records after it untouched. -/
theorem C5_trades_append_only_close_once_lifo :
    (∀ (pf : Portfolio) (ops : List Op),
        pf.trades.length ≤ (applyOps pf ops).trades.length) ∧
    (∀ (pf : Portfolio) (ops : List Op) (i : ℕ) (old : TradeRecord),
        pf.trades[i]? = some old →
        ∃ new, (applyOps pf ops).trades[i]? = some new ∧
          (old.status = "closed" → new = old) ∧ (new.status = "open" → new = old)) ∧
    (∀ (pf : Portfolio) (t : String) (price : ℚ) (sh : ℤ) (date : String),
        0 < (pf.sell t price sh date).1 →
        (∃ r ∈ pf.trades, r.ticker = t ∧ r.status = "open") →
        ∃ l₁ r l₂, pf.trades = l₁ ++ r :: l₂ ∧ r.ticker = t ∧ r.status = "open" ∧
          (∀ r' ∈ l₂, ¬(r'.ticker = t ∧ r'.status = "open")) ∧
          ∃ r', (pf.sell t price sh date).2.trades = l₁ ++ r' :: l₂ ∧
            r'.status = "closed" ∧ r'.ticker = r.ticker ∧ r'.shares = r.shares ∧
            r'.entry_date = r.entry_date ∧ r'.entry_price = r.entry_price ∧
            r'.exit_date = some date) := by
  refine ⟨?_, ?_, ?_⟩
  · intro pf ops
    exact applyOps_trades_length ops pf
  · intro pf ops i old h
    exact applyOps_trades_getElem ops pf i old h
  · intro pf t price sh date hfill hex
    cases hm : alookup pf.positions t with
    | none =>
      simp only [Portfolio.sell, hm] at hfill
      exact absurd hfill (by norm_num)
    | some pos =>
      obtain ⟨l₁, r, l₂, hdec, htk, hst, hnone, htr⟩ :=
        sell_trades_close pf t price sh date pos hm hex
      refine ⟨l₁, r, l₂, hdec, htk, hst, hnone,
        pf.sellUpd pos price (min sh pos.shares) date r, htr,
        sellUpd_status _ _ _ _ _ _, sellUpd_ticker _ _ _ _ _ _,
        sellUpd_shares _ _ _ _ _ _, sellUpd_entry_date _ _ _ _ _ _,
        sellUpd_entry_price _ _ _ _ _ _, sellUpd_exit_date _ _ _ _ _ _⟩

/-- A ledger holding two shares of A bought at 10.3 (fractional basis). -/
def pfFrac : Portfolio := ((Portfolio.init 100 cfg0).buy "A" (103/10) 2 "d1" "").2

/-- C10 counterexample: a partial sell of 1 of 2 shares bought at 10.3 and
sold at 10 records pnl = round(10 - 10.3) = 0, not the exact
netProceeds - avgExecPrice*actual = -0.3 the claim states. -/
theorem C10_counterexample_recorded_pnl_is_rounded :
    ¬ ((pfFrac.sell "A" 10 1 "d2").2.trades.headI.pnl = (10 : ℚ) - (103/10) * 1) := by
  norm_num [pfFrac, Portfolio.sell, Portfolio.sellUpd, sellCloseUpd, Portfolio.buy,
    Portfolio.fill, Portfolio.init, cfg0, alookup, closeLastOpen, closeLastOpenAux,
    pyRoundTo, pyRound, min_def]

/-- C10 amended: a sell against an existing position with an open record for
the ticker closes the last-created open record in place: its shares field
keeps the original lot size (which can exceed the amount actually sold in
this transaction), and its recorded pnl is netProceeds minus
avgExecPrice times the actually-sold count, rounded to the nearest whole
currency unit. -/
theorem C10_partial_sell_closes_lot_with_rounded_pnl_on_fill
    (pf : Portfolio) (t : String) (price : ℚ) (req : ℤ) (date : String)
    (pos : Position) (hpos : alookup pf.positions t = some pos)
    (hopen : ∃ r ∈ pf.trades, r.ticker = t ∧ r.status = "open") :
    ∃ l₁ r l₂, pf.trades = l₁ ++ r :: l₂ ∧ r.ticker = t ∧ r.status = "open" ∧
      (∀ r' ∈ l₂, ¬(r'.ticker = t ∧ r'.status = "open")) ∧
      ∃ r', (pf.sell t price req date).2.trades = l₁ ++ r' :: l₂ ∧
        r'.status = "closed" ∧ r'.shares = r.shares ∧
        r'.pnl = pyRoundTo 0
          (price * (1 - pf.cost.slippage_pct / 100) * ((min req pos.shares : ℤ) : ℚ)
            - price * (1 - pf.cost.slippage_pct / 100) * ((min req pos.shares : ℤ) : ℚ)
              * (pf.cost.commission_pct / 100)
            - price * (1 - pf.cost.slippage_pct / 100) * ((min req pos.shares : ℤ) : ℚ)
              * (pf.cost.tax_pct / 100)
            - pos.avg_price * ((min req pos.shares : ℤ) : ℚ)) := by
  obtain ⟨l₁, r, l₂, hdec, htk, hst, hnone, htr⟩ :=
    sell_trades_close pf t price req date pos hpos hopen
  exact ⟨l₁, r, l₂, hdec, htk, hst, hnone,
    pf.sellUpd pos price (min req pos.shares) date r, htr,
    sellUpd_status _ _ _ _ _ _, sellUpd_shares _ _ _ _ _ _,
    sellUpd_pnl _ _ _ _ _ _⟩

/-- A ledger holding one five-share lot of A bought at 10. -/
def pfFive : Portfolio := ((Portfolio.init 100 cfg0).buy "A" 10 5 "d1" "").2

/-- C10 witness: selling 2 out of the 5-share lot. -/
theorem C10_partial_sell_closes_lot_with_rounded_pnl_on_fill_witness :
    ∃ l₁ r l₂, pfFive.trades = l₁ ++ r :: l₂ ∧ r.ticker = "A" ∧ r.status = "open" ∧
      (∀ r' ∈ l₂, ¬(r'.ticker = "A" ∧ r'.status = "open")) ∧
      ∃ r', (pfFive.sell "A" 10 2 "d2").2.trades = l₁ ++ r' :: l₂ ∧
        r'.status = "closed" ∧ r'.shares = r.shares ∧
        r'.pnl = pyRoundTo 0
          ((10 : ℚ) * (1 - pfFive.cost.slippage_pct / 100)
              * ((min 2 ({ shares := 5, avg_price := 10, name := "A" } : Position).shares : ℤ) : ℚ)
            - (10 : ℚ) * (1 - pfFive.cost.slippage_pct / 100)
              * ((min 2 ({ shares := 5, avg_price := 10, name := "A" } : Position).shares : ℤ) : ℚ)
              * (pfFive.cost.commission_pct / 100)
            - (10 : ℚ) * (1 - pfFive.cost.slippage_pct / 100)
              * ((min 2 ({ shares := 5, avg_price := 10, name := "A" } : Position).shares : ℤ) : ℚ)
              * (pfFive.cost.tax_pct / 100)
            - ({ shares := 5, avg_price := 10, name := "A" } : Position).avg_price
              * ((min 2 ({ shares := 5, avg_price := 10, name := "A" } : Position).shares : ℤ) : ℚ)) := by
  apply C10_partial_sell_closes_lot_with_rounded_pnl_on_fill pfFive "A" 10 2 "d2"
    { shares := 5, avg_price := 10, name := "A" }
  · norm_num [pfFive, Portfolio.buy, Portfolio.fill, Portfolio.init, cfg0, alookup]
  · refine ⟨pfFive.trades.headI, ?_, ?_, ?_⟩ <;>
      norm_num [pfFive, Portfolio.buy, Portfolio.fill, Portfolio.init, cfg0, List.headI]

/-- The loop invariant of the MDD computation: the running deepest drawdown
is non-positive, its rounding is in the emitted curve (or nothing was
emitted yet and it is still 0), and it bounds every emitted value from
below, every emitted value being non-positive. -/
def mddInv (s : MddState) : Prop :=
  s.mdd ≤ 0 ∧
  ((s.dd_curve = [] ∧ s.mdd = 0) ∨ pyRoundTo 2 s.mdd ∈ s.dd_curve) ∧
  (∀ x ∈ s.dd_curve, pyRoundTo 2 s.mdd ≤ x ∧ x ≤ 0)

theorem mddStep_inv (s : MddState) (x : ℚ × String) (h : mddInv s) :
    mddInv (mddStep s x) := by
  obtain ⟨hm, hmem, hall⟩ := h
  have hxle : x.1 ≤ (if s.peak < x.1 then x.1 else s.peak) := by
    split_ifs with hp
    · exact le_refl _
    · exact le_of_not_lt hp
  have hdd : (if 0 < (if s.peak < x.1 then x.1 else s.peak)
      then (x.1 / (if s.peak < x.1 then x.1 else s.peak) - 1) * 100 else 0) ≤ 0 := by
    by_cases hp : 0 < (if s.peak < x.1 then x.1 else s.peak)
    · rw [if_pos hp]
      have : x.1 / (if s.peak < x.1 then x.1 else s.peak) ≤ 1 := (div_le_one hp).mpr hxle
      linarith
    · rw [if_neg hp]
  unfold mddStep
  set dd := (if 0 < (if s.peak < x.1 then x.1 else s.peak)
      then (x.1 / (if s.peak < x.1 then x.1 else s.peak) - 1) * 100 else 0) with hdddef
  by_cases hlt : dd < s.mdd
  · rw [if_pos hlt]
    refine ⟨le_trans hlt.le hm, Or.inr (List.mem_append_right _ (List.mem_singleton_self _)), ?_⟩
    intro y hy
    rcases List.mem_append.mp hy with hy | hy
    · have hb := hall y hy
      have : pyRoundTo 2 dd ≤ pyRoundTo 2 s.mdd := pyRoundTo_mono 2 hlt.le
      exact ⟨le_trans this hb.1, hb.2⟩
    · rw [List.mem_singleton.mp hy]
      exact ⟨le_refl _, pyRoundTo_nonpos 2 hdd⟩
  · rw [if_neg hlt]
    push_neg at hlt
    refine ⟨hm, ?_, ?_⟩
    · rcases hmem with ⟨hc, h0⟩ | hin
      · right
        have hdd0 : dd = 0 := le_antisymm hdd (h0 ▸ hlt)
        rw [hc]
        simp only [List.nil_append, List.mem_singleton]
        rw [h0, ← hdddef, hdd0]
      · exact Or.inr (List.mem_append_left _ hin)
    · intro y hy
      rcases List.mem_append.mp hy with hy | hy
      · exact hall y hy
      · rw [List.mem_singleton.mp hy]
        exact ⟨pyRoundTo_mono 2 hlt, pyRoundTo_nonpos 2 hdd⟩

theorem foldl_mddStep_inv (l : List (ℚ × String)) (s : MddState) (h : mddInv s) :
    mddInv (l.foldl mddStep s) := by
  induction l generalizing s with
  | nil => exact h
  | cons x xs ih => exact ih _ (mddStep_inv s x h)

theorem mddStep_curve_len (s : MddState) (x : ℚ × String) :
    (mddStep s x).dd_curve.length = s.dd_curve.length + 1 := by
  unfold mddStep
  by_cases h : (if 0 < (if s.peak < x.1 then x.1 else s.peak)
      then (x.1 / (if s.peak < x.1 then x.1 else s.peak) - 1) * 100 else 0) < s.mdd
  · rw [if_pos h]
    simp
  · rw [if_neg h]
    simp

theorem foldl_mddStep_curve_len (l : List (ℚ × String)) (s : MddState) :
    s.dd_curve.length ≤ (l.foldl mddStep s).dd_curve.length := by
  induction l generalizing s with
  | nil => exact le_refl _
  | cons x xs ih =>
    calc s.dd_curve.length ≤ (mddStep s x).dd_curve.length := by
          rw [mddStep_curve_len]
          omega
      _ ≤ _ := ih _

/-- C8: for every non-degenerate equity history the drawdown curve computed
by the metrics calculator is non-positive at every day (the running peak
starts at the first equity value), and the reported MDD is the minimum of
the curve: a member of the curve that bounds every entry from below. -/
theorem C8_drawdown_nonpos_and_mdd_is_min (equities : List ℚ) (dates : List String)
    (hne : equities ≠ []) (h0 : equities.headI ≠ 0)
    (hlen : dates.length = equities.length) :
    ∃ curve mdd pd td, calcMetricsMdd equities dates = some (curve, mdd, pd, td) ∧
      (∀ x ∈ curve, x ≤ 0) ∧ mdd ∈ curve ∧ (∀ x ∈ curve, mdd ≤ x) := by
  cases equities with
  | nil => exact absurd rfl hne
  | cons e0 es =>
    cases dates with
    | nil => simp at hlen
    | cons d0 ds =>
      have he0 : e0 ≠ 0 := h0
      have hinv0 : mddInv
          ({ peak := e0, mdd := 0, dd_curve := [], mdd_peak_d := d0,
             mdd_trough_d := d0, tmp_peak_d := d0 } : MddState) := by
        refine ⟨le_refl 0, Or.inl ⟨rfl, rfl⟩, ?_⟩
        intro x hx
        simp at hx
      set fin := (((e0 :: es).zip (d0 :: ds)).foldl mddStep
        ({ peak := e0, mdd := 0, dd_curve := [], mdd_peak_d := d0,
           mdd_trough_d := d0, tmp_peak_d := d0 } : MddState)) with hfin
      obtain ⟨hm, hmem, hall⟩ := foldl_mddStep_inv ((e0 :: es).zip (d0 :: ds)) _ hinv0
      have hcurve_ne : fin.dd_curve ≠ [] := by
        have h1 : 1 ≤ fin.dd_curve.length := by
          rw [hfin]
          have hz : ((e0 :: es).zip (d0 :: ds)) = (e0, d0) :: es.zip ds := rfl
          rw [hz, List.foldl_cons]
          have hlen2 := foldl_mddStep_curve_len (es.zip ds)
            (mddStep ({ peak := e0, mdd := 0, dd_curve := [], mdd_peak_d := d0,
                        mdd_trough_d := d0, tmp_peak_d := d0 } : MddState) (e0, d0))
          rw [mddStep_curve_len] at hlen2
          omega
        intro hc
        rw [hc] at h1
        simp at h1
      have hin : pyRoundTo 2 fin.mdd ∈ fin.dd_curve := by
        rcases hmem with ⟨hc, -⟩ | hin
        · exact absurd hc hcurve_ne
        · exact hin
      refine ⟨fin.dd_curve, pyRoundTo 2 fin.mdd, fin.mdd_peak_d, fin.mdd_trough_d, ?_,
        fun x hx => (hall x hx).2, hin, fun x hx => (hall x hx).1⟩
      simp only [calcMetricsMdd]
      rw [if_neg he0, hfin]

/-- C8 witness: equities [100, 120, 90]. -/
theorem C8_drawdown_nonpos_and_mdd_is_min_witness :
    ∃ curve mdd pd td,
      calcMetricsMdd [100, 120, 90] ["d1", "d2", "d3"] = some (curve, mdd, pd, td) ∧
      (∀ x ∈ curve, x ≤ 0) ∧ mdd ∈ curve ∧ (∀ x ∈ curve, mdd ≤ x) :=
  C8_drawdown_nonpos_and_mdd_is_min [100, 120, 90] ["d1", "d2", "d3"]
    (by simp) (by norm_num [List.headI]) (by rfl)

theorem alookup_append_single_ne {α : Type} (m : List (String × α)) (t t' : String)
    (v : α) (h : t ≠ t') : alookup (m ++ [(t', v)]) t = alookup m t := by
  cases hm : alookup m t with
  | some w => exact alookup_append_some _ hm
  | none =>
    rw [alookup_append_none _ hm]
    simp only [alookup]
    rw [if_neg fun he => h he.symm]

theorem buy_positions_other (pf : Portfolio) (t t' : String) (p : ℚ) (s : ℤ)
    (d n : String) (h : t ≠ t') :
    alookup (pf.buy t' p s d n).2.positions t = alookup pf.positions t := by
  have hfill : ∀ (exec : ℚ) (sh : ℤ),
      alookup (pf.fill t' p exec sh d n).positions t = alookup pf.positions t := by
    intro exec sh
    simp only [Portfolio.fill]
    cases hm : alookup pf.positions t' with
    | some pos =>
      simp only []
      exact alookup_setAssoc_ne _ _ _ _ h
    | none =>
      simp only []
      exact alookup_append_single_ne _ _ _ _ h
  simp only [Portfolio.buy]
  split_ifs <;> first | rfl | exact hfill _ _

/-- C6 part: the triggered trailing stop on one held ticker removes the
whole position, clears the holding flag and stamps the sale day. -/
theorem stopCheckOne_triggered (stop_pct : ℚ) (prices : List (String × ℚ)) (i : ℤ)
    (date : String) (st : VolStopState) (t : String) (p : ℚ)
    (hh : (alookup st.holding t).getD false = true)
    (hp : alookup prices t = some p)
    (hnd : nodupKeys st.portfolio.positions)
    (htrig : 0 < (alookup (if (alookup st.peaks t).getD 0 < p
                  then setAssoc st.peaks t p else st.peaks) t).getD p ∧
             (p / (alookup (if (alookup st.peaks t).getD 0 < p
                  then setAssoc st.peaks t p else st.peaks) t).getD p - 1) * 100
               ≤ stop_pct) :
    alookup (stopCheckOne stop_pct prices i date st t).portfolio.positions t = none ∧
    alookup (stopCheckOne stop_pct prices i date st t).holding t = some false ∧
    alookup (stopCheckOne stop_pct prices i date st t).sold_day t = some i := by
  unfold stopCheckOne
  rw [if_neg (by rw [hh]; exact fun hc => Bool.noConfusion hc), hp]
  simp only []
  rw [if_pos htrig]
  refine ⟨?_, by exact alookup_setAssoc_self _ _ _, by exact alookup_setAssoc_self _ _ _⟩
  cases hpos : alookup st.portfolio.positions t with
  | none => exact hpos
  | some pos =>
    simp only []
    exact sell_positions_self_full st.portfolio t p date pos hpos hnd

/-- C6 part: a ticker still inside its cooldown window is not buyable. -/
theorem volStopBuyable_cooldown_excluded (valid : List String)
    (prices : List (String × ℚ)) (holding : List (String × Bool))
    (sold_day : List (String × ℤ)) (ibd : Bool) (i cooldown : ℤ) (reentry : Bool)
    (t : String) (h : i - (alookup sold_day t).getD 0 ≤ cooldown) :
    t ∉ volStopBuyable valid prices holding sold_day ibd i cooldown reentry := by
  intro hmem
  unfold volStopBuyable at hmem
  rw [List.mem_filter] at hmem
  have hflag := hmem.2
  simp only [Bool.and_eq_true, decide_eq_true_eq] at hflag
  obtain ⟨⟨⟨-, -⟩, hcool⟩, -⟩ := hflag
  omega

theorem volStopBuyOne_frame (cfg : CostConfig) (tn : List (String × String))
    (prices invVols : List (String × ℚ)) (total_inv available : ℚ) (nbuy : ℕ)
    (date : String) (st : VolStopState) (t' t : String) (hne : t ≠ t') :
    alookup (volStopBuyOne cfg tn prices invVols total_inv available nbuy date
        st t').portfolio.positions t = alookup st.portfolio.positions t ∧
    alookup (volStopBuyOne cfg tn prices invVols total_inv available nbuy date
        st t').holding t = alookup st.holding t := by
  unfold volStopBuyOne
  by_cases ha : available * (if 0 < total_inv then (alookup invVols t').getD 0 / total_inv
      else 1 / (nbuy : ℚ)) ≤ 0
  · rw [if_pos ha]
    exact ⟨rfl, rfl⟩
  · rw [if_neg ha]
    cases hp : alookup prices t' with
    | none => exact ⟨rfl, rfl⟩
    | some p =>
      simp only []
      by_cases hs : 0 < pyInt (available * (if 0 < total_inv
          then (alookup invVols t').getD 0 / total_inv else 1 / (nbuy : ℚ))
          / (p * (1 + cfg.slippage_pct / 100) * (1 + cfg.commission_pct / 100)))
      · rw [if_pos hs]
        by_cases hb : 0 < (st.portfolio.buy t' p (pyInt (available * (if 0 < total_inv
            then (alookup invVols t').getD 0 / total_inv else 1 / (nbuy : ℚ))
            / (p * (1 + cfg.slippage_pct / 100) * (1 + cfg.commission_pct / 100))))
            date ((alookup tn t').getD t')).1
        · rw [if_pos hb]
          exact ⟨buy_positions_other _ _ _ _ _ _ _ hne,
                 alookup_setAssoc_ne _ _ _ _ hne⟩
        · rw [if_neg hb]
          exact ⟨buy_positions_other _ _ _ _ _ _ _ hne, rfl⟩
      · rw [if_neg hs]
        exact ⟨rfl, rfl⟩

theorem volStopBuyOne_fold_frame (cfg : CostConfig) (tn : List (String × String))
    (prices invVols : List (String × ℚ)) (total_inv available : ℚ) (nbuy : ℕ)
    (date : String) (l : List String) (st : VolStopState) (t : String)
    (hl : t ∉ l) :
    alookup ((l.foldl (volStopBuyOne cfg tn prices invVols total_inv available
        nbuy date) st)).portfolio.positions t = alookup st.portfolio.positions t ∧
    alookup ((l.foldl (volStopBuyOne cfg tn prices invVols total_inv available
        nbuy date) st)).holding t = alookup st.holding t := by
  induction l generalizing st with
  | nil => exact ⟨rfl, rfl⟩
  | cons x xs ih =>
    have hx : t ≠ x := fun he => hl (he ▸ List.mem_cons_self x xs)
    have hxs : t ∉ xs := fun hm => hl (List.mem_cons_of_mem x hm)
    rw [List.foldl_cons]
    obtain ⟨hp1, hh1⟩ := volStopBuyOne_frame cfg tn prices invVols total_inv
      available nbuy date st x t hx
    obtain ⟨hp2, hh2⟩ := ih _ hxs
    exact ⟨hp2.trans hp1, hh2.trans hh1⟩

/-- C6 part: through the whole buy phase of a day, a ticker inside its
cooldown window keeps its position and holding flag unchanged. -/
theorem volStopBuyPhase_cooldown_frame (cfg : CostConfig)
    (tn : List (String × String)) (pd : List (String × List PriceBar))
    (stdevFn : List ℚ → ℚ) (lookback : ℕ) (cooldown : ℤ) (reentry : Bool)
    (prices : List (String × ℚ)) (i : ℤ) (date : String) (valid : List String)
    (st : VolStopState) (t : String)
    (h : i - (alookup st.sold_day t).getD 0 ≤ cooldown) :
    alookup (volStopBuyPhase cfg tn pd stdevFn lookback cooldown reentry prices
        i date valid st).portfolio.positions t = alookup st.portfolio.positions t ∧
    alookup (volStopBuyPhase cfg tn pd stdevFn lookback cooldown reentry prices
        i date valid st).holding t = alookup st.holding t := by
  unfold volStopBuyPhase
  by_cases he : (volStopBuyable valid prices st.holding st.sold_day
      st.initial_buy_done i cooldown reentry).isEmpty
  · rw [if_pos he]
    exact ⟨rfl, rfl⟩
  · rw [if_neg he]
    exact volStopBuyOne_fold_frame _ _ _ _ _ _ _ _ _ _ _
      (volStopBuyable_cooldown_excluded valid prices st.holding st.sold_day
        st.initial_buy_done i cooldown reentry t h)

/-- One flat daily bar for the C6 scenario. -/
def c6bar (d : String) (c : ℚ) : PriceBar :=
  { date := d, openPx := c, highPx := c, lowPx := c, close := c, volume := 0 }

/-- The C6 scenario engine: one ticker A with closes 100, 120, 90 and no
transaction costs. -/
def c6engine : BacktestEngine :=
  (BacktestEngine.mk0 1000 0 0 0).add_price_data "A"
    [c6bar "d1" 100, c6bar "d2" 120, c6bar "d3" 90] "AName"

/-- A stdev implementation for the scenario run; the single-ticker run never
consults it (fewer than two return samples on the only buying day). -/
def c6stdev : List ℚ → ℚ := fun _ => 0

/-- The C6 scenario run: stop_pct = -10, cooldown = 5, re-entry allowed. -/
def c6run (stdevFn : List ℚ → ℚ) : BacktestEngine :=
  c6engine.run_volatility_trailing_stop stdevFn ["A"] none none 20 (-10) 5 true

/-- C6: a held ticker tracks its running peak; on any day where the price
sits at or below stop_pct percent of the refreshed peak, the entire position
is force-sold, the holding flag clears and the sale day is stamped; a ticker
whose sale day is within cooldown days is excluded from the buyable set, and
the whole buy phase leaves its position and holding flag untouched; and in
the spec scenario (one ticker, closes 100, 120, 90, stop_pct = -10,
cooldown = 5) the forced sell happens on day 3, leaving no open position. -/
theorem C6_trailing_stop_sells_on_trigger_and_blocks_reentry :
    (∀ (stop_pct : ℚ) (prices : List (String × ℚ)) (i : ℤ) (date : String)
        (st : VolStopState) (t : String) (p : ℚ),
        (alookup st.holding t).getD false = true →
        alookup prices t = some p →
        nodupKeys st.portfolio.positions →
        (0 < (alookup (if (alookup st.peaks t).getD 0 < p
                then setAssoc st.peaks t p else st.peaks) t).getD p ∧
         (p / (alookup (if (alookup st.peaks t).getD 0 < p
                then setAssoc st.peaks t p else st.peaks) t).getD p - 1) * 100
           ≤ stop_pct) →
        alookup (stopCheckOne stop_pct prices i date st t).portfolio.positions t
            = none ∧
        alookup (stopCheckOne stop_pct prices i date st t).holding t = some false ∧
        alookup (stopCheckOne stop_pct prices i date st t).sold_day t = some i) ∧
    (∀ (valid : List String) (prices : List (String × ℚ))
        (holding : List (String × Bool)) (sold_day : List (String × ℤ))
        (ibd : Bool) (i cooldown : ℤ) (reentry : Bool) (t : String),
        i - (alookup sold_day t).getD 0 ≤ cooldown →
        t ∉ volStopBuyable valid prices holding sold_day ibd i cooldown reentry) ∧
    (∀ (cfg : CostConfig) (tn : List (String × String))
        (pd : List (String × List PriceBar)) (stdevFn : List ℚ → ℚ)
        (lookback : ℕ) (cooldown : ℤ) (reentry : Bool)
        (prices : List (String × ℚ)) (i : ℤ) (date : String)
        (valid : List String) (st : VolStopState) (t : String),
        i - (alookup st.sold_day t).getD 0 ≤ cooldown →
        alookup (volStopBuyPhase cfg tn pd stdevFn lookback cooldown reentry
            prices i date valid st).portfolio.positions t
          = alookup st.portfolio.positions t ∧
        alookup (volStopBuyPhase cfg tn pd stdevFn lookback cooldown reentry
            prices i date valid st).holding t = alookup st.holding t) ∧
    (c6run c6stdev).portfolio.trades.map (fun r => (r.status, r.exit_date))
        = [("closed", some "d3")] ∧
    (c6run c6stdev).portfolio.positions = [] := by
  refine ⟨?_, ?_, ?_, ?_, ?_⟩
  · intro stop_pct prices i date st t p hh hp hnd htrig
    exact stopCheckOne_triggered stop_pct prices i date st t p hh hp hnd htrig
  · intro valid prices holding sold_day ibd i cooldown reentry t h
    exact volStopBuyable_cooldown_excluded valid prices holding sold_day ibd
      i cooldown reentry t h
  · intro cfg tn pd stdevFn lookback cooldown reentry prices i date valid st t h
    exact volStopBuyPhase_cooldown_frame cfg tn pd stdevFn lookback cooldown
      reentry prices i date valid st t h
  · decide!
  · decide!
